import Mathlib

/-!
# cod2e2 — node classification, variable resolution and skeleton canonicalisation

A shallow embedding of the template evaluation core and of the skeleton loader:

* `yaml`      — the part of `gopkg.in/yaml.v3`'s `Node` the code reads;
* `node`      — `yaml_evaluator/node` (`factory.go`, `sequence.go`; `src/node/factory.go`
                is the same function with exported predicate names);
* `traverse`  — the traversal engine (not among the sources, modelled from the specification);
* `evaluator` — the evaluator transforms (not among the sources, taken as parameters);
* `Variable`  — package `variable` (`factory.go`, `parse.go`);
* `filepath`  — `IsAbs`, `Join`, `Base` and `Clean` of Go's `path/filepath`, on Unix;
* `schema`    — `internal/pkg/schema/skeleton.go`.

Go results are made explicit: a function that returns `(x, error)` returns a `Result`,
a run-time panic is an outcome of its own, a `nil` map pointer is `none`.
-/

set_option autoImplicit false

/-! ## yaml.v3 nodes -/

namespace yaml

/-- The `yaml.Kind` of a node (a `uint32` in yaml.v3). -/
abbrev Kind := Nat

def DocumentNode : Kind := 1
def SequenceNode : Kind := 2
def MappingNode : Kind := 4
def ScalarNode : Kind := 8
def AliasNode : Kind := 16

/-- The fields of `yaml.Node` that the code reads: `Kind`, `Tag`, `Value`, `Content`.
A mapping node lists its entries flat in `Content`: key, value, key, value, … -/
inductive Node where
  | mk (Kind : Kind) (Tag : String) (Value : String) (Content : List Node)

namespace Node

def Kind : Node → yaml.Kind
  | mk k _ _ _ => k

def Tag : Node → String
  | mk _ t _ _ => t

def Value : Node → String
  | mk _ _ v _ => v

def Content : Node → List Node
  | mk _ _ _ c => c

end Node

end yaml

/-! ## Errors and results -/

/-- The `error` values the code builds with `fmt.Errorf`, by call site, together with the
errors of the evaluator package (whose text is not known here). -/
inductive Error where
  /-- `"'%v' is not map node."` (`findChildNodeWithKeyFromMap`). -/
  | notMapNode (parentNode : yaml.Node)
  /-- `"Not found '%s' keyed node in '%v' children"` (`findChildNodeWithKeyFromMap`). -/
  | notFound (value : String) (parentNode : yaml.Node)
  /-- `"Not terminal Node!\nKind = %v, Tag = %v\n"` (`TerminalFactory`). -/
  | notTerminal (kind : yaml.Kind) (tag : String)
  /-- `"Undefined Node!\nKind = %v, Tag = %v\n"` (`visitableFactory`). -/
  | undefinedNode (kind : yaml.Kind) (tag : String)
  /-- An error returned by one of the evaluator transforms. -/
  | transform (message : String)

/-- Outcome of a Go call with an `error` result: normal return without error, normal
return with an error, or a run-time panic (index out of range). -/
inductive Result (α : Type) where
  | ok (a : α)
  | err (e : Error)
  | panic

/-- Outcome of a Go call without an `error` result: it returns, or it panics. -/
inductive Outcome (α : Type) where
  | returned (a : α)
  | panic

/-! ## Package node -/

namespace node

/-- The predicates of package `node` that `TerminalFactory` and `visitableFactory` call
and whose files are not among the sources. They are parameters of the embedding. -/
structure Predicates where
  IsTerminal : yaml.Node → Bool
  isVariable : yaml.Node → Bool
  isSubstitution : yaml.Node → Bool
  isJoin : yaml.Node → Bool
  isKey : yaml.Node → Bool
  isIf : yaml.Node → Bool
  isEquals : yaml.Node → Bool
  IsMapping : yaml.Node → Bool
  IsScalar : yaml.Node → Bool

/-- `type SequenceNode struct { Path string; yaml.Node }` (sequence.go). -/
structure SequenceNode where
  Path : String
  Node : yaml.Node

/-- `IsSequence` (sequence.go): `node.Kind == yaml.SequenceNode`. -/
def IsSequence (node : yaml.Node) : Bool :=
  node.Kind == yaml.SequenceNode

/-- `CreateSequence` (sequence.go): `&SequenceNode{parentPath, *node}`. -/
def CreateSequence (parentPath : String) (node : yaml.Node) : SequenceNode :=
  ⟨parentPath, node⟩

/-- Modelled from the spec: `MappingNode` (file not among the sources), the mapping
counterpart of `SequenceNode`: the factory "only identifies shape and wraps the TreeNode with
its path" (§4.1). -/
structure MappingNode where
  Path : String
  Node : yaml.Node

/-- Modelled from the spec: `CreateMapping` (file not among the sources), the mapping
counterpart of `CreateSequence`. -/
def CreateMapping (parentPath : String) (node : yaml.Node) : MappingNode :=
  ⟨parentPath, node⟩

/-- Modelled from the spec: `ScalarNode` (file not among the sources), the scalar
counterpart of `SequenceNode`. -/
structure ScalarNode where
  Path : String
  Node : yaml.Node

/-- Modelled from the spec: `CreateScalar` (file not among the sources), the scalar
counterpart of `CreateSequence`. -/
def CreateScalar (parentPath : String) (node : yaml.Node) : ScalarNode :=
  ⟨parentPath, node⟩

/-- Modelled from the spec: the wrapper of a special form (files not among the sources):
a path and the embedded node, as for `SequenceNode`. -/
structure Wrapper where
  Path : String
  Node : yaml.Node

/-- The `Terminal` interface, as the closed set of its seven implementations (§2 of the
specification: Scalar, Variable, Substitution, Join, Key, If, Equals). -/
inductive Terminal where
  | Variable (w : Wrapper)
  | Substitution (w : Wrapper)
  | Join (w : Wrapper)
  | Key (w : Wrapper)
  | If (w : Wrapper)
  | Equals (w : Wrapper)
  | Scalar (s : ScalarNode)

/-- Modelled from the spec: `createVariable` (file not among the sources) wraps the node
with its path, as `CreateSequence` does. -/
def createVariable (parentPath : String) (node : yaml.Node) : Terminal :=
  .Variable ⟨parentPath, node⟩

/-- Modelled from the spec: `createSubstitution` (file not among the sources). -/
def createSubstitution (parentPath : String) (node : yaml.Node) : Terminal :=
  .Substitution ⟨parentPath, node⟩

/-- Modelled from the spec: `createJoin` (file not among the sources). -/
def createJoin (parentPath : String) (node : yaml.Node) : Terminal :=
  .Join ⟨parentPath, node⟩

/-- Modelled from the spec: `createKey` (file not among the sources). -/
def createKey (parentPath : String) (node : yaml.Node) : Terminal :=
  .Key ⟨parentPath, node⟩

/-- Modelled from the spec: `createIf` (file not among the sources). -/
def createIf (parentPath : String) (node : yaml.Node) : Terminal :=
  .If ⟨parentPath, node⟩

/-- Modelled from the spec: `createEquals` (file not among the sources). -/
def createEquals (parentPath : String) (node : yaml.Node) : Terminal :=
  .Equals ⟨parentPath, node⟩

/-- `TerminalFactory` (yaml_evaluator/node/factory.go, lines 8–26; node/factory.go is the
same function, with the predicates and constructors under their exported names). -/
def TerminalFactory (p : Predicates) (parentPath : String) (node : yaml.Node) :
    Result Terminal :=
  if !p.IsTerminal node then
    .err (.notTerminal node.Kind node.Tag)
  else if p.isVariable node then
    .ok (createVariable parentPath node)
  else if p.isSubstitution node then
    .ok (createSubstitution parentPath node)
  else if p.isJoin node then
    .ok (createJoin parentPath node)
  else if p.isKey node then
    .ok (createKey parentPath node)
  else if p.isIf node then
    .ok (createIf parentPath node)
  else if p.isEquals node then
    .ok (createEquals parentPath node)
  else
    .ok (.Scalar (CreateScalar parentPath node))

/-! ### Vocabulary of the classification claims -/

/-- The seven classifications of a terminal node. -/
inductive Form where
  | Variable | Substitution | Join | Key | If | Equals | Scalar
deriving DecidableEq, Repr

/-- The six special forms in the priority order of the specification (§4.1). -/
def specialForms : List Form :=
  [.Variable, .Substitution, .Join, .Key, .If, .Equals]

/-- The predicate that recognises a form; nothing is tested for a plain scalar. -/
def Predicates.recognises (p : Predicates) : Form → yaml.Node → Bool
  | .Variable => p.isVariable
  | .Substitution => p.isSubstitution
  | .Join => p.isJoin
  | .Key => p.isKey
  | .If => p.isIf
  | .Equals => p.isEquals
  | .Scalar => fun _ => false

/-- Which of the seven variants a `Terminal` is. -/
def Terminal.form : Terminal → Form
  | .Variable _ => .Variable
  | .Substitution _ => .Substitution
  | .Join _ => .Join
  | .Key _ => .Key
  | .If _ => .If
  | .Equals _ => .Equals
  | .Scalar _ => .Scalar

/-- The path a `Terminal` carries. -/
def Terminal.Path : Terminal → String
  | .Variable w => w.Path
  | .Substitution w => w.Path
  | .Join w => w.Path
  | .Key w => w.Path
  | .If w => w.Path
  | .Equals w => w.Path
  | .Scalar s => s.Path

/-- The node a `Terminal` embeds. -/
def Terminal.Node : Terminal → yaml.Node
  | .Variable w => w.Node
  | .Substitution w => w.Node
  | .Join w => w.Node
  | .Key w => w.Node
  | .If w => w.Node
  | .Equals w => w.Node
  | .Scalar s => s.Node

end node

/-! ## Package traverse -/

namespace traverse

/-- A `*yaml.Node` handed out by a traversal: the node's place in the traversed tree, as
the `Content` positions that lead to it from the root (`[]` is the root itself). -/
abbrev Ptr := List Nat

/-- Read through a pointer. A place outside the tree reads as the zero `yaml.Node`; the
pointers a traversal emits are always inside the tree (`Traverse_deref_inside`). -/
def deref : Ptr → yaml.Node → yaml.Node
  | [], root => root
  | i :: rest, root =>
    match root.Content[i]? with
    | some child => deref rest child
    | none => .mk 0 "" "" []

/-- The place is inside the tree: every position on the way exists. -/
def inside : Ptr → yaml.Node → Bool
  | [], _ => true
  | i :: rest, root =>
    match root.Content[i]? with
    | some child => inside rest child
    | none => false

/-- Replace the element at a position of a list. -/
def setAt (f : yaml.Node → yaml.Node) : Nat → List yaml.Node → List yaml.Node
  | _, [] => []
  | 0, n :: rest => f n :: rest
  | i + 1, n :: rest => n :: setAt f i rest

/-- Write through a pointer (`*ptr = new`): the tree with the node at that place replaced. -/
def assign : Ptr → yaml.Node → yaml.Node → yaml.Node
  | [], _, new => new
  | i :: rest, .mk kind tag value content, new =>
    .mk kind tag value (setAt (fun child => assign rest child new) i content)

/-- `traverse.NodeInfo`, the traversal record: (path, node, isTerminal) (§3). -/
structure NodeInfo where
  Path : String
  Node : Ptr
  Terminal : Bool
deriving DecidableEq, Repr

/-- The two traversal orders (§4.2). -/
inductive Order where
  | PreOrder
  | PostOrder
deriving DecidableEq, Repr

mutual

/-- Modelled from the spec: the records of the subtree of one node (package `traverse` is
not among the sources). §3: a node is a Mapping, a Sequence or a Scalar; `isTerminal` "is
true exactly for leaf scalar values"; §4.2: in pre-order "a node is emitted before its
children", in post-order "all children are emitted before their parent". -/
def traverseNode (order : Order) (path : String) (ptr : Ptr) : yaml.Node → List NodeInfo
  | .mk kind _ _ content =>
    let self : NodeInfo := ⟨path, ptr, kind == yaml.ScalarNode⟩
    let children :=
      if kind == yaml.MappingNode then traverseMapping order path ptr 0 content
      else if kind == yaml.SequenceNode then traverseSequence order path ptr 0 content
      else []
    match order with
    | .PreOrder => self :: children
    | .PostOrder => children ++ [self]

/-- Modelled from the spec: the entries of a mapping, in order; the value of the entry
with key `k` has the path "parent path + `.` + key" (§3). -/
def traverseMapping (order : Order) (path : String) (ptr : Ptr) (index : Nat) :
    List yaml.Node → List NodeInfo
  | key :: value :: rest =>
    traverseNode order (path ++ "." ++ key.Value) (ptr ++ [index + 1]) value
      ++ traverseMapping order path ptr (index + 2) rest
  | _ => []

/-- Modelled from the spec: the elements of a sequence, in order; the element at `index`
has the path "parent path + `[index]`" (§3). -/
def traverseSequence (order : Order) (path : String) (ptr : Ptr) (index : Nat) :
    List yaml.Node → List NodeInfo
  | element :: rest =>
    traverseNode order (path ++ "[" ++ toString index ++ "]") (ptr ++ [index]) element
      ++ traverseSequence order path ptr (index + 1) rest
  | [] => []

end

/-- Modelled from the spec: `traverse.Traverse(node, ch, order)`, as the finite sequence of
records the producer sends on `ch` (§4.2: "the record order is strictly deterministic and
matches the chosen order"). The root has the empty path, so that the key of a binding is
`"arguments" + path`, e.g. `arguments.docker_compose.project_prefix` (§3, §4.3). -/
def Traverse (node : yaml.Node) (order : Order) : List NodeInfo :=
  traverseNode order "" [] node

end traverse

/-! ## Package evaluator -/

namespace evaluator

/-- The `map[string]string` of bindings: the value bound to a key, if any. -/
abbrev VariableMap := String → Option String

/-- The four transforms `evaluateLet` calls (package `evaluator` is not among the sources):
parameters of the embedding. Each receives the node behind the pointer it is given and
returns the node it leaves there, or fails. `EvaluateVariable` is also given the pointer to
the bindings, and returns the bindings as it leaves them. -/
structure Transforms where
  EvaluateVariable : yaml.Node → VariableMap → Result (yaml.Node × VariableMap)
  EvaluateSubstitution : yaml.Node → Result yaml.Node
  EvaluateEquals : yaml.Node → Result yaml.Node
  EvaluateIf : yaml.Node → Result yaml.Node

/-- Modelled from the spec: what §4.4 says of the transforms of package `evaluator` and the
bindings, "read for lookups; phase 2 does not write to it — writes happen only in
harvesting phases": the Variable transform returns the bindings it was given. -/
def Transforms.ReadsOnly (t : Transforms) : Prop :=
  ∀ n variableMap reduced variableMap1,
    t.EvaluateVariable n variableMap = .ok (reduced, variableMap1) → variableMap1 = variableMap

end evaluator

/-! ## Package variable -/

namespace Variable

open traverse evaluator

def ArgumentsKey : String := "arguments"

def LetKey : String := "let"

/-- The `visitable` interface, as its three implementations `mappingNode`, `sequenceNode`
and `scalarNode`, each embedding the wrapper made by package `node`. -/
inductive visitable where
  | mappingNode (m : node.MappingNode)
  | sequenceNode (s : node.SequenceNode)
  | scalarNode (s : node.ScalarNode)

/-- `visitableFactory` (factory.go, lines 9–18). -/
def visitableFactory (p : node.Predicates) (parentPath : String) (n : yaml.Node) :
    Result visitable :=
  if p.IsMapping n then
    .ok (.mappingNode (node.CreateMapping parentPath n))
  else if node.IsSequence n then
    .ok (.sequenceNode (node.CreateSequence parentPath n))
  else if p.IsScalar n then
    .ok (.scalarNode (node.CreateScalar parentPath n))
  else
    .err (.undefinedNode n.Kind n.Tag)

/-- `make(map[string]string)`: no key is bound. -/
def emptyMap : VariableMap :=
  fun _ => none

/-- `(*variableMap)[key] = value`. -/
def store (variableMap : VariableMap) (key value : String) : VariableMap :=
  fun k => if k = key then some value else variableMap k

/-- The loop of `findChildNodeWithKeyFromMap` (parse.go, lines 46–53) over the part of
`Content` from `index` on: it reads `Content[index]` and `Content[index + 1]` (a panic
when only one node is left), returns the pair if the key node has the value, and goes on
two places further otherwise. -/
def findChildLoop (parentNode : yaml.Node) (value : String) :
    List yaml.Node → Result (yaml.Node × yaml.Node)
  | [] => .err (.notFound value parentNode)
  | [_] => .panic
  | childKeyNode :: childValueNode :: rest =>
    if childKeyNode.Value == value then
      .ok (childKeyNode, childValueNode)
    else
      findChildLoop parentNode value rest

/-- `findChildNodeWithKeyFromMap` (parse.go, lines 41–54). -/
def findChildNodeWithKeyFromMap (parentNode : yaml.Node) (value : String) :
    Result (yaml.Node × yaml.Node) :=
  if parentNode.Tag != "!!map" then
    .err (.notMapNode parentNode)
  else
    findChildLoop parentNode value parentNode.Content

/-- The loop of `parseArguments` (parse.go, lines 59–63) over the records received from
the channel; `root` is the traversed tree, through which `nodeInfo.Node` is read. -/
def harvest ( keyPrefix : String) (root : yaml.Node) :
    List NodeInfo → VariableMap → VariableMap
  | [], variableMap => variableMap
  | nodeInfo :: rest, variableMap =>
    if nodeInfo.Terminal then
      harvest keyPrefix root rest
        (store variableMap (keyPrefix ++ nodeInfo.Path) (deref nodeInfo.Node root).Value)
    else
      harvest keyPrefix root rest variableMap

/-- `parseArguments` (parse.go, lines 56–64): the map after the pre-order pass. -/
def parseArguments ( keyPrefix : String) (arguments : yaml.Node) (variableMap : VariableMap) :
    VariableMap :=
  harvest keyPrefix arguments (Traverse arguments .PreOrder) variableMap

/-- A call `evaluator.Evaluate…(nodeInfo.Node)` on the node behind `ptr`, which the
transform rewrites in place: the tree afterwards, or the transform's error. -/
def applyAt (root : yaml.Node) (ptr : Ptr) (f : yaml.Node → Result yaml.Node) :
    Result yaml.Node :=
  match f (deref ptr root) with
  | .ok reduced => .ok (assign ptr root reduced)
  | .err e => .err e
  | .panic => .panic

/-- The call `evaluator.EvaluateVariable(nodeInfo.Node, variableMap)`: the tree and the
bindings afterwards, or the transform's error. -/
def applyVariableAt (t : Transforms) (root : yaml.Node) (ptr : Ptr)
    (variableMap : VariableMap) : Result (yaml.Node × VariableMap) :=
  match t.EvaluateVariable (deref ptr root) variableMap with
  | .ok (reduced, variableMap1) => .ok (assign ptr root reduced, variableMap1)
  | .err e => .err e
  | .panic => .panic

/-- The body of the loop of `evaluateLet` (parse.go, lines 70–81) for one record: the four
transforms in the order Variable, Substitution, Equals, If, returning at the first error. -/
def evaluateRecord (t : Transforms) (root : yaml.Node) (variableMap : VariableMap)
    (nodeInfo : NodeInfo) : Result (yaml.Node × VariableMap) :=
  match applyVariableAt t root nodeInfo.Node variableMap with
  | .err e => .err e
  | .panic => .panic
  | .ok (root1, variableMap1) =>
    match applyAt root1 nodeInfo.Node t.EvaluateSubstitution with
    | .err e => .err e
    | .panic => .panic
    | .ok root2 =>
      match applyAt root2 nodeInfo.Node t.EvaluateEquals with
      | .err e => .err e
      | .panic => .panic
      | .ok root3 =>
        match applyAt root3 nodeInfo.Node t.EvaluateIf with
        | .err e => .err e
        | .panic => .panic
        | .ok root4 => .ok (root4, variableMap1)

/-- The loop of `evaluateLet` (parse.go, lines 69–83) over the records received from the
channel, threading what the two pointers point to: the `let` tree, which the transforms
rewrite in place, and the bindings. -/
def evaluateLetLoop (t : Transforms) :
    List NodeInfo → yaml.Node → VariableMap → Result (yaml.Node × VariableMap)
  | [], root, variableMap => .ok (root, variableMap)
  | nodeInfo :: rest, root, variableMap =>
    match evaluateRecord t root variableMap nodeInfo with
    | .err e => .err e
    | .panic => .panic
    | .ok (root1, variableMap1) => evaluateLetLoop t rest root1 variableMap1

/-- `evaluateLet` (parse.go, lines 66–84): the `let` tree and the bindings as the post-order
pass leaves them, or the error it returns. The records are those of the tree as it is when
the pass starts: in post-order what the producer still has to emit after a record does not
depend on what the consumer writes through that record's pointer
(`Traverse_postOrder_after`). -/
def evaluateLet (t : Transforms) (let_ : yaml.Node) (variableMap : VariableMap) :
    Result (yaml.Node × VariableMap) :=
  evaluateLetLoop t (Traverse let_ .PostOrder) let_ variableMap

/-- `Parse` (parse.go, lines 21–39): `returned none` is the `nil` result. -/
def Parse (t : Transforms) (variablesNode : yaml.Node) : Outcome (Option VariableMap) :=
  match findChildNodeWithKeyFromMap variablesNode ArgumentsKey with
  | .panic => .panic
  | .err _ => .returned none
  | .ok (_, argumentValueNode) =>
    let variableMap := parseArguments ArgumentsKey argumentValueNode emptyMap
    match findChildNodeWithKeyFromMap variablesNode LetKey with
    | .panic => .panic
    | .err _ => .returned none
    | .ok (_, letValueNode) =>
      match evaluateLet t letValueNode variableMap with
      | .panic => .panic
      | .err _ => .returned none
      | .ok (reducedLet, variableMap1) =>
        .returned (some (parseArguments LetKey reducedLet variableMap1))

/-! ### Vocabulary of the resolution claims -/

/-- The entries of a mapping's `Content`: (key node, value node), in order. -/
def entries : List yaml.Node → List (yaml.Node × yaml.Node)
  | key :: value :: rest => (key, value) :: entries rest
  | _ => []

/-- The node is a map that has an entry whose key is `key`. -/
def HasSection (variablesNode : yaml.Node) (key : String) : Prop :=
  variablesNode.Tag = "!!map" ∧ ∃ kv ∈ entries variablesNode.Content, kv.1.Value = key

/-- The keys bound in a map. -/
def keys (variableMap : VariableMap) : Set String :=
  fun k => variableMap k ≠ none

end Variable

/-! ## Sample instances, for concrete runs -/

namespace Sample

open evaluator

/-- A plain string scalar. -/
def str (value : String) : yaml.Node :=
  .mk yaml.ScalarNode "!!str" value []

/-- A mapping with the given flat content. -/
def mapping (content : List yaml.Node) : yaml.Node :=
  .mk yaml.MappingNode "!!map" "" content

/-- A scalar tagged `!Var`, naming a binding. -/
def var (path : String) : yaml.Node :=
  .mk yaml.ScalarNode "!Var" path []

/-- A sequence with the given elements. -/
def sequence (content : List yaml.Node) : yaml.Node :=
  .mk yaml.SequenceNode "!!seq" "" content

/-- The tree `{a.b: "1", a: {b: "2"}}`: two leaves with the path `.a.b`. -/
def dotted : yaml.Node :=
  mapping [str "a.b", str "1", str "a", mapping [str "b", str "2"]]

/-- The tree `{"s[0]": "p", s: ["q"]}`: two leaves with the path `.s[0]`. -/
def indexed : yaml.Node :=
  mapping [str "s[0]", str "p", str "s", sequence [str "q"]]

/-- The `arguments` section of `seed`: `{env: "prod"}`. -/
def seedArguments : yaml.Node :=
  mapping [str "env", str "prod"]

/-- The `let` section of `seed`: `{x.y: !Var arguments.env, x: {y: "2"}}`. -/
def seedLet : yaml.Node :=
  mapping [str "x.y", var "arguments.env", str "x", mapping [str "y", str "2"]]

/-- The `let` section of `seed` once reduced: `{x.y: "prod", x: {y: "2"}}`. -/
def seedReducedLet : yaml.Node :=
  mapping [str "x.y", str "prod", str "x", mapping [str "y", str "2"]]

/-- A variables node with both sections. -/
def seed : yaml.Node :=
  mapping [str "arguments", seedArguments, str "let", seedLet]

/-- One possible set of predicates: kinds are read off `Kind`, the special forms off the
tag, except that a node whose value is `"join"` also counts as a Join. -/
def predicates : node.Predicates where
  IsTerminal := fun n => n.Kind == yaml.ScalarNode
  isVariable := fun n => n.Tag == "!Var"
  isSubstitution := fun n => n.Tag == "!Sub"
  isJoin := fun n => n.Tag == "!Join" || n.Value == "join"
  isKey := fun n => n.Tag == "!Key"
  isIf := fun n => n.Tag == "!If"
  isEquals := fun n => n.Tag == "!Equals"
  IsMapping := fun n => n.Kind == yaml.MappingNode
  IsScalar := fun n => n.Kind == yaml.ScalarNode

/-- One possible set of transforms: a node tagged `!Var` is replaced by the scalar bound to
the path it names and fails when that path is unbound; the other transforms do nothing.
The bindings are only read. -/
def transforms : Transforms where
  EvaluateVariable := fun n variableMap =>
    if n.Tag == "!Var" then
      match variableMap n.Value with
      | some value => .ok (str value, variableMap)
      | none => .err (.transform n.Value)
    else
      .ok (n, variableMap)
  EvaluateSubstitution := .ok
  EvaluateEquals := .ok
  EvaluateIf := .ok

end Sample

/-! ## Package path/filepath (Unix) -/

namespace filepath

/-- The elements of a path between its separators (`/`); `"a//b"` has the elements
`a`, the empty element and `b`. -/
def split : List Char → List (List Char)
  | [] => [[]]
  | c :: rest =>
    if c = '/' then
      [] :: split rest
    else
      match split rest with
      | [] => [[c]]
      | element :: elements => (c :: element) :: elements

/-- The elements joined with `/`. -/
def joinElements : List (List Char) → List Char
  | [] => []
  | [element] => element
  | element :: elements => element ++ '/' :: joinElements elements

/-- One element of a path being cleaned; `out` holds the elements kept so far, the last one
first. Empty elements and `.` are dropped; `..` removes the element before it, is dropped
at the root, and is kept at the start of a path that is not rooted. -/
def cleanElement (rooted : Bool) (out : List (List Char)) (element : List Char) :
    List (List Char) :=
  if element = [] ∨ element = ['.'] then
    out
  else if element = ['.', '.'] then
    match out with
    | [] => if rooted then [] else [element]
    | last :: before => if last = ['.', '.'] then element :: out else before
  else
    element :: out

/-- `filepath.Clean`, by the rules of its documentation: the shortest path equivalent to
`path` by purely lexical processing; `"."` for the empty result. -/
def Clean (path : String) : String :=
  if path = "" then
    "."
  else
    let rooted : Bool := path.data.head? = some '/'
    let out := ((split path.data).foldl (cleanElement rooted) []).reverse
    if rooted then
      String.mk ('/' :: joinElements out)
    else if out = [] then
      "."
    else
      String.mk (joinElements out)

/-- `filepath.IsAbs` on Unix: `strings.HasPrefix(path, "/")`. -/
def IsAbs (path : String) : Bool :=
  path.data.head? = some '/'

/-- `filepath.Join` of two elements: empty elements are ignored, the rest is joined with
`/` and cleaned; `""` when both are empty. -/
def Join (first second : String) : String :=
  if first ≠ "" then
    Clean (first ++ "/" ++ second)
  else if second ≠ "" then
    Clean second
  else
    ""

/-- The path without its trailing separators. -/
def stripTrailing (path : List Char) : List Char :=
  (path.reverse.dropWhile (fun c => c = '/')).reverse

/-- What follows the last separator of the path. -/
def lastElement (path : List Char) : List Char :=
  (path.reverse.takeWhile (fun c => c ≠ '/')).reverse

/-- `filepath.Base`: the last element of the path, trailing separators removed first;
`"."` for the empty path, `"/"` for a path of separators only. -/
def Base (path : String) : String :=
  if path = "" then
    "."
  else if lastElement (stripTrailing path.data) = [] then
    "/"
  else
    String.mk (lastElement (stripTrailing path.data))

end filepath

/-! ## Package schema (skeleton.go) -/

namespace schema

def ARGUMENTS_KEY : String := "arguments"

def VSCODE_DEVCONTAINER_KEY : String := ARGUMENTS_KEY ++ ".vscode_devcontainer"

def DEVCONTAINER_PROJECT_NAME_KEY : String := VSCODE_DEVCONTAINER_KEY ++ ".project_name"

def DEVCONTAINER_ATTACH_SERVICE_KEY : String := VSCODE_DEVCONTAINER_KEY ++ ".attach_service"

def DOCKER_COMPOSE_KEY : String := ARGUMENTS_KEY ++ ".docker_compose"

def DOCKER_COMPOSE_PROJECT_PREFIX_KEY : String := DOCKER_COMPOSE_KEY ++ ".project_prefix"

def DOCKER_COMPOSE_FILES_KEY : String := DOCKER_COMPOSE_KEY ++ ".files"

/-- The field `vscode_devcontainer` of `Arguments`. -/
structure VSCodeDevcontainer where
  ProjectName : String
  AttachService : String
deriving DecidableEq, Repr

/-- The field `vscode_extension_volumes` of `docker_compose`. -/
structure VSCodeExtensionVolumes where
  Normal : String
  Insider : String
deriving DecidableEq, Repr

/-- The field `docker_compose` of `Arguments`. -/
structure DockerCompose where
  ProjectPrefix : String
  Files : List String
  VSCodeExtensionVolumes : VSCodeExtensionVolumes
deriving DecidableEq, Repr

/-- `type Arguments struct` (skeleton.go, lines 28–41). -/
structure Arguments where
  VSCodeDevcontainer : VSCodeDevcontainer
  DockerCompose : DockerCompose
deriving DecidableEq, Repr

/-- `type Collection struct` (skeleton.go, lines 43–47). -/
structure Collection where
  Name : String
  Path : String
  User : String
deriving DecidableEq, Repr

/-- `type Collections struct` (skeleton.go, lines 49–52). -/
structure Collections where
  Path : String
  List : List Collection
deriving DecidableEq, Repr

/-- `type Skeleton struct` (skeleton.go, lines 54–58). -/
structure Skeleton where
  Version : String
  Arguments : Arguments
  Collections : Collections
deriving DecidableEq, Repr

/-- The error every `getCanonical` returns for a base directory that is not absolute:
`"[Error] baseAbsDir = '%v' is not absolute path."`. -/
def notAbsolute (baseAbsDir : String) : String :=
  "[Error] baseAbsDir = '" ++ baseAbsDir ++ "' is not absolute path."

/-- `resolvePath` (skeleton.go, lines 77–82). -/
def resolvePath (baseAbsDir targetPath : String) : String :=
  if filepath.IsAbs targetPath then
    targetPath
  else
    filepath.Join baseAbsDir targetPath

/-- The loop of `attachedServiceExists` (lines 86–88): the names put into `serviceNameSet`. -/
def serviceNameSet : List Collection → List String
  | [] => []
  | collection :: rest => collection.Name :: serviceNameSet rest

/-- `Skeleton.attachedServiceExists` (skeleton.go, lines 84–91). -/
def Skeleton.attachedServiceExists (self : Skeleton) : Bool :=
  (serviceNameSet self.Collections.List).contains self.Arguments.VSCodeDevcontainer.AttachService

/-- `Skeleton.validate` (skeleton.go, lines 93–102). -/
def Skeleton.validate (self : Skeleton) : Except String Unit :=
  if !self.attachedServiceExists then
    .error ("[Error] '" ++ DEVCONTAINER_ATTACH_SERVICE_KEY ++ "' specified value (= '"
      ++ self.Arguments.VSCodeDevcontainer.AttachService ++ "') collection is not found!")
  else
    .ok ()

/-- The loop of `Arguments.validate` (lines 147–154) over `docker_compose.files`. -/
def validateFiles : List String → Except String Unit
  | [] => .ok ()
  | path :: rest =>
    if path = "" then
      .error ("[Error] 'path' is not specified in '" ++ DOCKER_COMPOSE_FILES_KEY ++ "'!")
    else
      validateFiles rest

/-- `Arguments.validate` (skeleton.go, lines 130–156). -/
def Arguments.validate (self : Arguments) : Except String Unit :=
  if self.VSCodeDevcontainer.ProjectName = "" then
    .error ("[Error] '" ++ DEVCONTAINER_PROJECT_NAME_KEY ++ "' is specified!")
  else if self.VSCodeDevcontainer.AttachService = "" then
    .error ("[Error] '" ++ DEVCONTAINER_ATTACH_SERVICE_KEY ++ "' is specified!")
  else if self.DockerCompose.ProjectPrefix = "" then
    .error ("[Error] '" ++ DOCKER_COMPOSE_PROJECT_PREFIX_KEY ++ "' is specified!")
  else
    validateFiles self.DockerCompose.Files

/-- The loop of `Arguments.getCanonical` (lines 169–174): `dockerComposeAbsPaths` after the
remaining `files` have been appended. -/
def appendResolved (baseAbsDir : String) :
    List String → List String → List String
  | [], dockerComposeAbsPaths => dockerComposeAbsPaths
  | path :: rest, dockerComposeAbsPaths =>
    appendResolved baseAbsDir rest (dockerComposeAbsPaths ++ [resolvePath baseAbsDir path])

/-- `Arguments.getCanonical` (skeleton.go, lines 158–177). -/
def Arguments.getCanonical (self : Arguments) (baseAbsDir : String) : Except String Arguments :=
  if !filepath.IsAbs baseAbsDir then
    .error (notAbsolute baseAbsDir)
  else
    match self.validate with
    | .error err => .error err
    | .ok _ =>
      let result := self
      let dockerComposeAbsPaths := appendResolved baseAbsDir self.DockerCompose.Files []
      .ok { result with
        DockerCompose := { result.DockerCompose with Files := dockerComposeAbsPaths } }

/-- `Collections.validate` (skeleton.go, lines 179–184). -/
def Collections.validate (self : Collections) : Except String Unit :=
  if self.Path = "" then
    .error "[Error] 'collections.path' is not specified!"
  else
    .ok ()

/-- `Collection.validate` (skeleton.go, lines 210–215). -/
def Collection.validate (self : Collection) : Except String Unit :=
  if self.Name = "" ∧ self.Path = "" then
    .error "[Error] neither 'name' nor 'path' is specified in 'collections.list'!"
  else
    .ok ()

/-- `Collection.getCanonical` (skeleton.go, lines 217–234). The last assignment resolves
`self.Path`, as the source does, not the `result.Path` set two lines before. -/
def Collection.getCanonical (self : Collection) (baseAbsDir : String) :
    Except String Collection :=
  if !filepath.IsAbs baseAbsDir then
    .error (notAbsolute baseAbsDir)
  else
    match self.validate with
    | .error err => .error err
    | .ok _ =>
      let result := self
      let result :=
        if self.Name = "" then
          { result with Name := filepath.Base self.Path }
        else if self.Path = "" then
          { result with Path := filepath.Join "." self.Name }
        else
          result
      let result := { result with Path := resolvePath baseAbsDir self.Path }
      .ok result

/-- The loop of `Collections.getCanonical` (lines 197–206): `canonicalList` after the
remaining collections have been appended, or the first error. -/
def appendCanonical (absPath : String) :
    List Collection → List Collection → Except String (List Collection)
  | [], canonicalList => .ok canonicalList
  | collection :: rest, canonicalList =>
    match collection.getCanonical absPath with
    | .error err => .error err
    | .ok canonicalCollection => appendCanonical absPath rest (canonicalList ++ [canonicalCollection])

/-- `Collections.getCanonical` (skeleton.go, lines 186–208). -/
def Collections.getCanonical (self : Collections) (baseAbsDir : String) :
    Except String Collections :=
  if !filepath.IsAbs baseAbsDir then
    .error (notAbsolute baseAbsDir)
  else
    match self.validate with
    | .error err => .error err
    | .ok _ =>
      let absPath := resolvePath baseAbsDir self.Path
      match appendCanonical absPath self.List [] with
      | .error err => .error err
      | .ok canonicalList => .ok { Path := absPath, List := canonicalList }

/-- `Skeleton.getCanonical` (skeleton.go, lines 104–128). -/
def Skeleton.getCanonical (self : Skeleton) (baseAbsDir : String) : Except String Skeleton :=
  if !filepath.IsAbs baseAbsDir then
    .error (notAbsolute baseAbsDir)
  else
    match self.Arguments.getCanonical baseAbsDir with
    | .error err => .error err
    | .ok arguments =>
      match self.Collections.getCanonical baseAbsDir with
      | .error err => .error err
      | .ok collections =>
        let result : Skeleton :=
          { Version := self.Version, Arguments := arguments, Collections := collections }
        match result.validate with
        | .error err => .error err
        | .ok _ => .ok result

/-! ### Vocabulary of the canonicalisation claims -/

/-- The name of a collection after canonicalisation: an empty name is replaced by the base
name of the collection's path. -/
def canonicalName (collection : Collection) : String :=
  if collection.Name = "" then filepath.Base collection.Path else collection.Name

end schema

/-! ## Sample skeleton -/

namespace Sample

open schema

/-- Arguments with one relative and one absolute compose file. -/
def arguments : Arguments :=
  { VSCodeDevcontainer := { ProjectName := "proj", AttachService := "db" },
    DockerCompose :=
      { ProjectPrefix := "pre", Files := ["docker-compose.yml", "/etc/extra.yml"],
        VSCodeExtensionVolumes := { Normal := "ext", Insider := "ext-insider" } } }

/-- A collection given by its name only. -/
def nameOnly : Collection :=
  { Name := "web", Path := "", User := "node" }

/-- A collection given by its path only. -/
def pathOnly : Collection :=
  { Name := "", Path := "services/db/", User := "" }

/-- A skeleton whose attach service `db` is the collection given by the path `services/db/`. -/
def skeleton : Skeleton :=
  { Version := "1", Arguments := arguments,
    Collections := { Path := "collections", List := [nameOnly, pathOnly] } }

/-- The sample skeleton made canonical for the base directory `/home/p`. -/
def canonicalSkeleton : Skeleton :=
  { Version := "1",
    Arguments :=
      { VSCodeDevcontainer := { ProjectName := "proj", AttachService := "db" },
        DockerCompose :=
          { ProjectPrefix := "pre", Files := ["/home/p/docker-compose.yml", "/etc/extra.yml"],
            VSCodeExtensionVolumes := { Normal := "ext", Insider := "ext-insider" } } },
    Collections :=
      { Path := "/home/p/collections",
        List := [{ Name := "web", Path := "/home/p/collections", User := "node" },
                 { Name := "db", Path := "/home/p/collections/services/db", User := "" }] } }

end Sample

/-! ## Vocabulary of the let evaluation claims -/

namespace Variable

open traverse evaluator

/-- The four transforms of let evaluation (§4.3, §4.4). -/
inductive Transform where
  | Variable
  | Substitution
  | Equals
  | If
deriving DecidableEq, Repr

/-- The fixed order of §4.3: "the Variable transform, then Substitution, then Equals, then
If". -/
def transformOrder : List Transform :=
  [.Variable, .Substitution, .Equals, .If]

/-- §4.3: "A transform that matches replaces the node's content in place": the tree with
the node of the record replaced by what the transform returned, the bindings as given; a
transform that fails leaves its error. -/
def replaceNode (nodeInfo : NodeInfo) (root : yaml.Node) (variableMap : VariableMap) :
    Result yaml.Node → Result (yaml.Node × VariableMap)
  | .ok reduced => .ok (assign nodeInfo.Node root reduced, variableMap)
  | .err e => .err e
  | .panic => .panic

/-- One transform applied to the node of a record (§4.3, §4.4), stated on the transforms
themselves: the transform is run on the node behind the record's pointer, Variable with
the bindings, and what it returns is put in that node's place. -/
def applyTransform (t : Transforms) (nodeInfo : NodeInfo) (transform : Transform)
    (root : yaml.Node) (variableMap : VariableMap) : Result (yaml.Node × VariableMap) :=
  match transform with
  | .Variable =>
    match t.EvaluateVariable (deref nodeInfo.Node root) variableMap with
    | .ok (reduced, variableMap1) => .ok (assign nodeInfo.Node root reduced, variableMap1)
    | .err e => .err e
    | .panic => .panic
  | .Substitution =>
    replaceNode nodeInfo root variableMap (t.EvaluateSubstitution (deref nodeInfo.Node root))
  | .Equals =>
    replaceNode nodeInfo root variableMap (t.EvaluateEquals (deref nodeInfo.Node root))
  | .If =>
    replaceNode nodeInfo root variableMap (t.EvaluateIf (deref nodeInfo.Node root))

/-- The transform applications of let evaluation as §4.3 lists them: for every record, in
emission order, the four transforms in the fixed order. -/
def applications : List NodeInfo → List (NodeInfo × Transform)
  | [] => []
  | nodeInfo :: rest => transformOrder.map (fun transform => (nodeInfo, transform))
      ++ applications rest

/-- The applications made one after the other; the first that fails ends the pass with its
error (§4.3 failure policy, §7 propagation policy). -/
def applyInOrder (t : Transforms) :
    List (NodeInfo × Transform) → yaml.Node → VariableMap → Result (yaml.Node × VariableMap)
  | [], root, variableMap => .ok (root, variableMap)
  | (nodeInfo, transform) :: rest, root, variableMap =>
    match applyTransform t nodeInfo transform root variableMap with
    | .ok (root1, variableMap1) => applyInOrder t rest root1 variableMap1
    | .err e => .err e
    | .panic => .panic

/-- What a transform application does to the tree, the bindings left aside. -/
def reduction : Result (yaml.Node × VariableMap) → Result yaml.Node
  | .ok (root, _) => .ok root
  | .err e => .err e
  | .panic => .panic

/-- The transform is handed the bindings: some implementation of it, on some record and
tree, reduces differently under two maps. -/
def ReceivesBindings (transform : Transform) : Prop :=
  ∃ (t : Transforms) (nodeInfo : NodeInfo) (root : yaml.Node) (m1 m2 : VariableMap),
    reduction (applyTransform t nodeInfo transform root m1) ≠
      reduction (applyTransform t nodeInfo transform root m2)

end Variable

/-! ## The bindings in memory -/

namespace evaluator

/-- The transforms with their effect on the bindings made explicit in every outcome: the
Variable transform, which is handed the pointer to the map, returns its result for the node
together with the map as the call leaves it, also when it fails. -/
structure MemoryTransforms where
  EvaluateVariable : yaml.Node → VariableMap → Result yaml.Node × VariableMap
  EvaluateSubstitution : yaml.Node → Result yaml.Node
  EvaluateEquals : yaml.Node → Result yaml.Node
  EvaluateIf : yaml.Node → Result yaml.Node

/-- The transforms as `evaluateLet` sees them: of a failing call only the error. -/
def MemoryTransforms.toTransforms (mt : MemoryTransforms) : Transforms where
  EvaluateVariable := fun n variableMap =>
    match mt.EvaluateVariable n variableMap with
    | (.ok reduced, variableMap1) => .ok (reduced, variableMap1)
    | (.err e, _) => .err e
    | (.panic, _) => .panic
  EvaluateSubstitution := mt.EvaluateSubstitution
  EvaluateEquals := mt.EvaluateEquals
  EvaluateIf := mt.EvaluateIf

/-- Modelled from the spec: the transforms of package `evaluator` (not among the sources) as
§4.4 describes them: each receives the node and "the BindingMap accumulated so far (read for
lookups; phase 2 does not write to it — writes happen only in harvesting phases)"; §5: the
map "is never mutated from within a transform". A transform returns the reduced node or
fails, and the map is none of its results. -/
structure SpecTransforms where
  EvaluateVariable : yaml.Node → VariableMap → Result yaml.Node
  EvaluateSubstitution : yaml.Node → Result yaml.Node
  EvaluateEquals : yaml.Node → Result yaml.Node
  EvaluateIf : yaml.Node → Result yaml.Node

/-- Modelled from the spec: the effect on memory of transforms that only read the map: the
Variable call leaves the map it was handed, whether it succeeds or fails. -/
def SpecTransforms.toMemory (s : SpecTransforms) : MemoryTransforms where
  EvaluateVariable := fun n variableMap => (s.EvaluateVariable n variableMap, variableMap)
  EvaluateSubstitution := s.EvaluateSubstitution
  EvaluateEquals := s.EvaluateEquals
  EvaluateIf := s.EvaluateIf

end evaluator

namespace Variable

open traverse evaluator

/-- The map behind `variableMap` when the loop of `evaluateLet` is left, by its last record
or by a `return err`: a record hands the pointer to `EvaluateVariable` and to nothing else
(parse.go, lines 70–81), so after a record the map is as that call left it; the loop goes
on to the next record only when the record succeeded. -/
def bindingsAfterLoop (mt : MemoryTransforms) :
    List NodeInfo → yaml.Node → VariableMap → VariableMap
  | [], _, variableMap => variableMap
  | nodeInfo :: rest, root, variableMap =>
    match evaluateRecord mt.toTransforms root variableMap nodeInfo with
    | .ok (root1, _) =>
      bindingsAfterLoop mt rest root1
        (mt.EvaluateVariable (deref nodeInfo.Node root) variableMap).2
    | .err _ => (mt.EvaluateVariable (deref nodeInfo.Node root) variableMap).2
    | .panic => (mt.EvaluateVariable (deref nodeInfo.Node root) variableMap).2

/-- The BindingMap after `evaluateLet(let, &variableMap)`, whether it returned `nil` or an
error. -/
def bindingsAfter (mt : MemoryTransforms) (let_ : yaml.Node) (variableMap : VariableMap) :
    VariableMap :=
  bindingsAfterLoop mt (Traverse let_ .PostOrder) let_ variableMap

end Variable

/-! ## Sample transforms that leave marks -/

namespace Sample

open evaluator

/-- The node with a mark appended to its value. -/
def mark (letter : String) : yaml.Node → yaml.Node
  | .mk kind tag value content => .mk kind tag (value ++ letter) content

/-- One possible set of transforms, each leaving its letter on the node it is applied to:
`v`, `s`, `e`, `i`. Equals fails on a node tagged `!Fail`, with the node's value as the
message. -/
def marking : Transforms where
  EvaluateVariable := fun n variableMap => .ok (mark "v" n, variableMap)
  EvaluateSubstitution := fun n => .ok (mark "s" n)
  EvaluateEquals := fun n =>
    if n.Tag == "!Fail" then .err (.transform n.Value) else .ok (mark "e" n)
  EvaluateIf := fun n => .ok (mark "i" n)

/-- A scalar tagged `!Fail`. -/
def failing (value : String) : yaml.Node :=
  .mk yaml.ScalarNode "!Fail" value []

/-- The tree `{k: a, l: [b]}`. -/
def marked : yaml.Node :=
  mapping [str "k", str "a", str "l", sequence [str "b"]]

/-- The tree `{k: a, l: [b]}` after the four marking transforms have been applied to every
record. -/
def markedReduced : yaml.Node :=
  .mk yaml.MappingNode "!!map" "vsei"
    [str "k", str "avsei", str "l", .mk yaml.SequenceNode "!!seq" "vsei" [str "bvsei"]]

/-- The tree `!Fail {k: !Fail c, l: !Fail d}`, the mapping itself tagged `!Fail` and valued
`p`. -/
def failingTree : yaml.Node :=
  .mk yaml.MappingNode "!Fail" "p" [str "k", failing "c", str "l", failing "d"]

/-- Transforms that follow §4.4 and only read the map: a node tagged `!Var` is replaced by
the scalar bound to the path it names and fails when that path is unbound. -/
def reading : SpecTransforms where
  EvaluateVariable := fun n variableMap =>
    if n.Tag == "!Var" then
      match variableMap n.Value with
      | some value => .ok (str value)
      | none => .err (.transform n.Value)
    else
      .ok n
  EvaluateSubstitution := .ok
  EvaluateEquals := .ok
  EvaluateIf := .ok

/-- A Variable transform that writes the map it is handed: it binds `seen` to the value
of the node, and fails on a node tagged `!Fail`. -/
def writing : MemoryTransforms where
  EvaluateVariable := fun n variableMap =>
    (if n.Tag == "!Fail" then .err (.transform n.Value) else .ok n,
      fun k => if k = "seen" then some n.Value else variableMap k)
  EvaluateSubstitution := .ok
  EvaluateEquals := .ok
  EvaluateIf := .ok

end Sample

/-! ## Traversal pointers -/

namespace traverse

theorem inside_cons (i : Nat) (rest : Ptr) (kind : yaml.Kind) (tag value : String)
    (content : List yaml.Node) (child : yaml.Node) (hchild : content[i]? = some child)
    (hrest : inside rest child = true) :
    inside (i :: rest) (.mk kind tag value content) = true := by
  simp [inside, yaml.Node.Content, hchild, hrest]

mutual

theorem traverseNode_inside (order : Order) (path : String) (ptr : Ptr) :
    ∀ (n : yaml.Node) (r : NodeInfo), r ∈ traverseNode order path ptr n →
      ∃ suffix, r.Node = ptr ++ suffix ∧ inside suffix n = true
  | .mk kind tag value content, r, hr => by
    have hself : ∀ r : NodeInfo, r = ⟨path, ptr, kind == yaml.ScalarNode⟩ →
        ∃ suffix, r.Node = ptr ++ suffix ∧ inside suffix (.mk kind tag value content) = true := by
      rintro r rfl
      exact ⟨[], by simp, rfl⟩
    have hchildren : ∀ r : NodeInfo,
        r ∈ (if kind == yaml.MappingNode then traverseMapping order path ptr 0 content
          else if kind == yaml.SequenceNode then traverseSequence order path ptr 0 content
          else []) →
        ∃ suffix, r.Node = ptr ++ suffix ∧ inside suffix (.mk kind tag value content) = true := by
      intro r hr
      split at hr
      · obtain ⟨j, child, suffix, hj, hnode, hin⟩ :=
          traverseMapping_inside order path ptr 0 content r hr
        exact ⟨(0 + j) :: suffix, hnode, inside_cons _ _ _ _ _ _ _ (by simpa using hj) hin⟩
      · split at hr
        · obtain ⟨j, child, suffix, hj, hnode, hin⟩ :=
            traverseSequence_inside order path ptr 0 content r hr
          exact ⟨(0 + j) :: suffix, hnode, inside_cons _ _ _ _ _ _ _ (by simpa using hj) hin⟩
        · simp at hr
    unfold traverseNode at hr
    cases order with
    | PreOrder =>
      simp only [List.mem_cons] at hr
      rcases hr with hr | hr
      · exact hself r hr
      · exact hchildren r hr
    | PostOrder =>
      simp only [List.mem_append, List.mem_singleton] at hr
      rcases hr with hr | hr
      · exact hchildren r hr
      · exact hself r hr

theorem traverseMapping_inside (order : Order) (path : String) (ptr : Ptr) :
    ∀ (index : Nat) (content : List yaml.Node) (r : NodeInfo),
      r ∈ traverseMapping order path ptr index content →
      ∃ j child suffix, content[j]? = some child ∧
        r.Node = ptr ++ (index + j) :: suffix ∧ inside suffix child = true
  | _, [], r, hr => by simp [traverseMapping] at hr
  | _, [_], r, hr => by simp [traverseMapping] at hr
  | index, key :: value :: rest, r, hr => by
    unfold traverseMapping at hr
    simp only [List.mem_append] at hr
    rcases hr with hr | hr
    · obtain ⟨suffix, hnode, hin⟩ := traverseNode_inside order _ _ value r hr
      exact ⟨1, value, suffix, by simp, by simpa using hnode, hin⟩
    · obtain ⟨j, child, suffix, hj, hnode, hin⟩ :=
        traverseMapping_inside order path ptr (index + 2) rest r hr
      exact ⟨j + 2, child, suffix, by simpa using hj, by rw [hnode]; congr 2; omega, hin⟩

theorem traverseSequence_inside (order : Order) (path : String) (ptr : Ptr) :
    ∀ (index : Nat) (content : List yaml.Node) (r : NodeInfo),
      r ∈ traverseSequence order path ptr index content →
      ∃ j child suffix, content[j]? = some child ∧
        r.Node = ptr ++ (index + j) :: suffix ∧ inside suffix child = true
  | _, [], r, hr => by simp [traverseSequence] at hr
  | index, element :: rest, r, hr => by
    unfold traverseSequence at hr
    simp only [List.mem_append] at hr
    rcases hr with hr | hr
    · obtain ⟨suffix, hnode, hin⟩ := traverseNode_inside order _ _ element r hr
      exact ⟨0, element, suffix, by simp, by simpa using hnode, hin⟩
    · obtain ⟨j, child, suffix, hj, hnode, hin⟩ :=
        traverseSequence_inside order path ptr (index + 1) rest r hr
      exact ⟨j + 1, child, suffix, by simpa using hj, by rw [hnode]; congr 2; omega, hin⟩

end

/-- Every pointer a traversal emits is a place inside the traversed tree. -/
theorem Traverse_deref_inside (root : yaml.Node) (order : Order) (r : NodeInfo)
    (hr : r ∈ Traverse root order) : inside r.Node root = true := by
  obtain ⟨suffix, hnode, hin⟩ := traverseNode_inside order "" [] root r hr
  simpa [hnode] using hin

end traverse

/-! ## Traversal and rewriting in place -/

namespace traverse

theorem deref_cons (i : Nat) (rest : Ptr) (kind : yaml.Kind) (tag value : String)
    (content : List yaml.Node) (child : yaml.Node) (hchild : content[i]? = some child) :
    deref (i :: rest) (.mk kind tag value content) = deref rest child := by
  simp [deref, yaml.Node.Content, hchild]

mutual

theorem traverseNode_assign (order : Order) (path : String) (ptr : Ptr) :
    ∀ (n : yaml.Node) (r : NodeInfo), r ∈ traverseNode order path ptr n →
      ∃ before after suffix, r.Node = ptr ++ suffix ∧
        r.Terminal = ((deref suffix n).Kind == yaml.ScalarNode) ∧
        traverseNode order path ptr n =
          before ++ traverseNode order r.Path r.Node (deref suffix n) ++ after ∧
        ∀ new, traverseNode order path ptr (assign suffix n new) =
          before ++ traverseNode order r.Path r.Node new ++ after
  | .mk kind tag value content, r, hr => by
    have hself : ∀ r : NodeInfo, r = ⟨path, ptr, kind == yaml.ScalarNode⟩ →
        ∃ before after suffix, r.Node = ptr ++ suffix ∧
          r.Terminal = ((deref suffix (.mk kind tag value content)).Kind == yaml.ScalarNode) ∧
          traverseNode order path ptr (.mk kind tag value content) =
            before ++ traverseNode order r.Path r.Node
              (deref suffix (.mk kind tag value content)) ++ after ∧
          ∀ new, traverseNode order path ptr (assign suffix (.mk kind tag value content) new) =
            before ++ traverseNode order r.Path r.Node new ++ after := by
      rintro r rfl
      exact ⟨[], [], [], by simp, by simp [deref, yaml.Node.Kind], by simp [deref],
        fun new => by simp [assign]⟩
    have hchildren : ∀ r : NodeInfo,
        r ∈ (if kind == yaml.MappingNode then traverseMapping order path ptr 0 content
          else if kind == yaml.SequenceNode then traverseSequence order path ptr 0 content
          else []) →
        ∃ before after suffix, r.Node = ptr ++ suffix ∧
          r.Terminal = ((deref suffix (.mk kind tag value content)).Kind == yaml.ScalarNode) ∧
          traverseNode order path ptr (.mk kind tag value content) =
            before ++ traverseNode order r.Path r.Node
              (deref suffix (.mk kind tag value content)) ++ after ∧
          ∀ new, traverseNode order path ptr (assign suffix (.mk kind tag value content) new) =
            before ++ traverseNode order r.Path r.Node new ++ after := by
      intro r hr
      by_cases hmap : (kind == yaml.MappingNode) = true
      · simp only [hmap, if_true] at hr
        obtain ⟨before, after, j, child, suffix, hj, hnode, hterminal, horig, hnew⟩ :=
          traverseMapping_assign order path ptr 0 content r hr
        simp only [Nat.zero_add] at hnode
        cases order with
        | PreOrder =>
          refine ⟨⟨path, ptr, kind == yaml.ScalarNode⟩ :: before, after, j :: suffix, hnode,
            by rw [deref_cons _ _ _ _ _ _ _ hj]; exact hterminal, ?_, fun new => ?_⟩
          · rw [deref_cons _ _ _ _ _ _ _ hj]
            simp [traverseNode, hmap, horig]
          · simp [assign, traverseNode, hmap, hnew]
        | PostOrder =>
          refine ⟨before, after ++ [⟨path, ptr, kind == yaml.ScalarNode⟩], j :: suffix, hnode,
            by rw [deref_cons _ _ _ _ _ _ _ hj]; exact hterminal, ?_, fun new => ?_⟩
          · rw [deref_cons _ _ _ _ _ _ _ hj]
            simp [traverseNode, hmap, horig]
          · simp [assign, traverseNode, hmap, hnew]
      · simp only [hmap, if_false] at hr
        by_cases hseq : (kind == yaml.SequenceNode) = true
        · simp only [hseq, if_true] at hr
          obtain ⟨before, after, j, child, suffix, hj, hnode, hterminal, horig, hnew⟩ :=
            traverseSequence_assign order path ptr 0 content r hr
          simp only [Nat.zero_add] at hnode
          cases order with
          | PreOrder =>
            refine ⟨⟨path, ptr, kind == yaml.ScalarNode⟩ :: before, after, j :: suffix, hnode,
              by rw [deref_cons _ _ _ _ _ _ _ hj]; exact hterminal, ?_, fun new => ?_⟩
            · rw [deref_cons _ _ _ _ _ _ _ hj]
              simp [traverseNode, hmap, hseq, horig]
            · simp [assign, traverseNode, hmap, hseq, hnew]
          | PostOrder =>
            refine ⟨before, after ++ [⟨path, ptr, kind == yaml.ScalarNode⟩], j :: suffix, hnode,
              by rw [deref_cons _ _ _ _ _ _ _ hj]; exact hterminal, ?_, fun new => ?_⟩
            · rw [deref_cons _ _ _ _ _ _ _ hj]
              simp [traverseNode, hmap, hseq, horig]
            · simp [assign, traverseNode, hmap, hseq, hnew]
        · simp [hseq] at hr
    unfold traverseNode at hr
    cases order with
    | PreOrder =>
      simp only [List.mem_cons] at hr
      rcases hr with hr | hr
      · exact hself r hr
      · exact hchildren r hr
    | PostOrder =>
      simp only [List.mem_append, List.mem_singleton] at hr
      rcases hr with hr | hr
      · exact hchildren r hr
      · exact hself r hr

theorem traverseMapping_assign (order : Order) (path : String) (ptr : Ptr) :
    ∀ (index : Nat) (content : List yaml.Node) (r : NodeInfo),
      r ∈ traverseMapping order path ptr index content →
      ∃ before after j child suffix, content[j]? = some child ∧
        r.Node = ptr ++ (index + j) :: suffix ∧
        r.Terminal = ((deref suffix child).Kind == yaml.ScalarNode) ∧
        traverseMapping order path ptr index content =
          before ++ traverseNode order r.Path r.Node (deref suffix child) ++ after ∧
        ∀ new, traverseMapping order path ptr index
            (setAt (fun c => assign suffix c new) j content) =
          before ++ traverseNode order r.Path r.Node new ++ after
  | _, [], r, hr => by simp [traverseMapping] at hr
  | _, [_], r, hr => by simp [traverseMapping] at hr
  | index, key :: value :: rest, r, hr => by
    unfold traverseMapping at hr
    simp only [List.mem_append] at hr
    rcases hr with hr | hr
    · obtain ⟨before, after, suffix, hnode, hterminal, horig, hnew⟩ :=
        traverseNode_assign order _ _ value r hr
      refine ⟨before, after ++ traverseMapping order path ptr (index + 2) rest, 1, value, suffix,
        by simp, by simpa using hnode, hterminal, ?_, fun new => ?_⟩
      · simp [traverseMapping, horig]
      · simp [setAt, traverseMapping, hnew]
    · obtain ⟨before, after, j, child, suffix, hj, hnode, hterminal, horig, hnew⟩ :=
        traverseMapping_assign order path ptr (index + 2) rest r hr
      refine ⟨traverseNode order (path ++ "." ++ key.Value) (ptr ++ [index + 1]) value ++ before,
        after, j + 2, child, suffix, by simpa using hj,
        by rw [hnode]; congr 2; omega, hterminal, ?_, fun new => ?_⟩
      · simp [traverseMapping, horig]
      · simp [setAt, traverseMapping, hnew]

theorem traverseSequence_assign (order : Order) (path : String) (ptr : Ptr) :
    ∀ (index : Nat) (content : List yaml.Node) (r : NodeInfo),
      r ∈ traverseSequence order path ptr index content →
      ∃ before after j child suffix, content[j]? = some child ∧
        r.Node = ptr ++ (index + j) :: suffix ∧
        r.Terminal = ((deref suffix child).Kind == yaml.ScalarNode) ∧
        traverseSequence order path ptr index content =
          before ++ traverseNode order r.Path r.Node (deref suffix child) ++ after ∧
        ∀ new, traverseSequence order path ptr index
            (setAt (fun c => assign suffix c new) j content) =
          before ++ traverseNode order r.Path r.Node new ++ after
  | _, [], r, hr => by simp [traverseSequence] at hr
  | index, element :: rest, r, hr => by
    unfold traverseSequence at hr
    simp only [List.mem_append] at hr
    rcases hr with hr | hr
    · obtain ⟨before, after, suffix, hnode, hterminal, horig, hnew⟩ :=
        traverseNode_assign order _ _ element r hr
      refine ⟨before, after ++ traverseSequence order path ptr (index + 1) rest, 0, element,
        suffix, by simp, by simpa using hnode, hterminal, ?_, fun new => ?_⟩
      · simp [traverseSequence, horig]
      · simp [setAt, traverseSequence, hnew]
    · obtain ⟨before, after, j, child, suffix, hj, hnode, hterminal, horig, hnew⟩ :=
        traverseSequence_assign order path ptr (index + 1) rest r hr
      refine ⟨traverseNode order (path ++ "[" ++ toString index ++ "]") (ptr ++ [index]) element
          ++ before,
        after, j + 1, child, suffix, by simpa using hj,
        by rw [hnode]; congr 2; omega, hterminal, ?_, fun new => ?_⟩
      · simp [traverseSequence, horig]
      · simp [setAt, traverseSequence, hnew]

end

/-- Rewriting the node behind a record's pointer changes the records of that node's own
subtree and no other: what the traversal emits before and after them stays as it is. The
record is terminal exactly when the node behind its pointer is a scalar. -/
theorem Traverse_assign (root : yaml.Node) (order : Order) (r : NodeInfo)
    (hr : r ∈ Traverse root order) :
    ∃ before after,
      r.Terminal = ((deref r.Node root).Kind == yaml.ScalarNode) ∧
      Traverse root order =
        before ++ traverseNode order r.Path r.Node (deref r.Node root) ++ after ∧
      ∀ new, Traverse (assign r.Node root new) order =
        before ++ traverseNode order r.Path r.Node new ++ after := by
  obtain ⟨before, after, suffix, hnode, hterminal, horig, hnew⟩ :=
    traverseNode_assign order "" [] root r hr
  simp only [List.nil_append] at hnode
  subst hnode
  exact ⟨before, after, hterminal, horig, hnew⟩

/-- In post-order the record of a node closes the records of its subtree. -/
theorem traverseNode_postOrder (path : String) (ptr : Ptr) (n : yaml.Node) :
    ∃ children, traverseNode .PostOrder path ptr n =
      children ++ [⟨path, ptr, n.Kind == yaml.ScalarNode⟩] := by
  cases n with
  | mk kind tag value content => exact ⟨_, by simp [traverseNode, yaml.Node.Kind]; rfl⟩

/-- The records that follow a record in post-order do not depend on what is written
through its pointer: the producer, walking on while the consumer rewrites the node it was
handed, emits what it would have emitted on the tree as it was. -/
theorem Traverse_postOrder_after (root : yaml.Node) (r : NodeInfo)
    (hr : r ∈ Traverse root .PostOrder) :
    ∃ before after, Traverse root .PostOrder = before ++ r :: after ∧
      ∀ new, ∃ before1,
        Traverse (assign r.Node root new) .PostOrder =
          before1 ++ ⟨r.Path, r.Node, new.Kind == yaml.ScalarNode⟩ :: after := by
  obtain ⟨before, after, hterminal, horig, hnew⟩ := Traverse_assign root .PostOrder r hr
  obtain ⟨children, hchildren⟩ := traverseNode_postOrder r.Path r.Node (deref r.Node root)
  refine ⟨before ++ children, after, ?_, fun new => ?_⟩
  · rw [horig, hchildren, ← hterminal]
    simp
  · obtain ⟨children1, hchildren1⟩ := traverseNode_postOrder r.Path r.Node new
    exact ⟨before ++ children1, by rw [hnew, hchildren1]; simp⟩

end traverse

/-! ## Classification -/

namespace node

theorem find_specialForms (p : Predicates) (n : yaml.Node) :
    (specialForms.find? (fun f => p.recognises f n)).getD .Scalar =
      if p.isVariable n then .Variable
      else if p.isSubstitution n then .Substitution
      else if p.isJoin n then .Join
      else if p.isKey n then .Key
      else if p.isIf n then .If
      else if p.isEquals n then .Equals
      else .Scalar := by
  simp only [specialForms, List.find?, Predicates.recognises]
  cases p.isVariable n <;> cases p.isSubstitution n <;> cases p.isJoin n <;>
    cases p.isKey n <;> cases p.isIf n <;> cases p.isEquals n <;> rfl

/-- C1: on a terminal node `TerminalFactory` returns the variant of the earliest form, in
the order Variable, Substitution, Join, Key, If, Equals, whose predicate holds, and a plain
Scalar when none holds; the wrapper carries the given path and the node unchanged. -/
theorem TerminalFactory_earliest_form (p : Predicates) (parentPath : String) (n : yaml.Node)
    (hterminal : p.IsTerminal n = true) :
    ∃ t, TerminalFactory p parentPath n = .ok t ∧
      t.form = (specialForms.find? (fun f => p.recognises f n)).getD .Scalar ∧
      t.Path = parentPath ∧ t.Node = n := by
  rw [find_specialForms]
  unfold TerminalFactory
  simp only [hterminal, Bool.not_true, Bool.false_eq_true, if_false]
  cases p.isVariable n <;> cases p.isSubstitution n <;> cases p.isJoin n <;>
    cases p.isKey n <;> cases p.isIf n <;> cases p.isEquals n <;>
    exact ⟨_, rfl, rfl, rfl, rfl⟩

/-- A tagged-`!Key` scalar whose value is `"join"` satisfies both the Join and the Key
predicate of the sample predicates; the factory answers Join, the earlier of the two. -/
theorem TerminalFactory_earliest_form_witness :
    Sample.predicates.isJoin (.mk yaml.ScalarNode "!Key" "join" []) = true ∧
    Sample.predicates.isKey (.mk yaml.ScalarNode "!Key" "join" []) = true ∧
    ∃ t, TerminalFactory Sample.predicates ".a" (.mk yaml.ScalarNode "!Key" "join" []) = .ok t ∧
      t.form = .Join ∧ t.Path = ".a" ∧ t.Node = .mk yaml.ScalarNode "!Key" "join" [] := by
  refine ⟨by decide, by decide, ?_⟩
  obtain ⟨t, h, hform, hpath, hnode⟩ :=
    TerminalFactory_earliest_form Sample.predicates ".a" (.mk yaml.ScalarNode "!Key" "join" [])
      (by decide)
  exact ⟨t, h, hform.trans (by decide), hpath, hnode⟩

/-- C9: `TerminalFactory` never panics, returns an error exactly on the nodes that are not
terminal, and on a terminal node returns exactly one of the seven variants, the Scalar
variant precisely when none of the six special-form predicates holds. -/
theorem TerminalFactory_total_on_terminal (p : Predicates) (parentPath : String)
    (n : yaml.Node) :
    TerminalFactory p parentPath n ≠ .panic ∧
    ((∃ e, TerminalFactory p parentPath n = .err e) ↔ p.IsTerminal n = false) ∧
    (p.IsTerminal n = false →
      TerminalFactory p parentPath n = .err (.notTerminal n.Kind n.Tag)) ∧
    (p.IsTerminal n = true →
      (∃! f : Form, ∃ t, TerminalFactory p parentPath n = .ok t ∧ t.form = f) ∧
      ∀ t, TerminalFactory p parentPath n = .ok t →
        (t.form = .Scalar ↔ ∀ f ∈ specialForms, p.recognises f n = false)) := by
  cases hterminal : p.IsTerminal n
  · have herr : TerminalFactory p parentPath n = .err (.notTerminal n.Kind n.Tag) := by
      simp [TerminalFactory, hterminal]
    refine ⟨by simp [herr], ⟨fun _ => rfl, fun _ => ⟨_, herr⟩⟩, fun _ => herr, ?_⟩
    intro h
    cases h
  · obtain ⟨t, ht, hform, -, -⟩ := TerminalFactory_earliest_form p parentPath n hterminal
    refine ⟨by simp [ht], ⟨?_, fun h => Bool.noConfusion h⟩, fun h => Bool.noConfusion h,
      fun _ => ⟨?_, ?_⟩⟩
    · rintro ⟨e, he⟩
      rw [ht] at he
      cases he
    · refine ⟨t.form, ⟨t, ht, rfl⟩, ?_⟩
      rintro f ⟨t2, ht2, rfl⟩
      rw [ht] at ht2
      cases ht2
      rfl
    · intro t2 ht2
      rw [ht] at ht2
      cases ht2
      rw [hform, find_specialForms]
      simp only [specialForms, List.mem_cons, List.mem_singleton, forall_eq_or_imp, forall_eq,
        Predicates.recognises, List.not_mem_nil, false_implies, implies_true, and_true]
      cases p.isVariable n <;> cases p.isSubstitution n <;> cases p.isJoin n <;>
        cases p.isKey n <;> cases p.isIf n <;> cases p.isEquals n <;> simp

end node

namespace Variable

open traverse evaluator

/-- C8: `visitableFactory` fails exactly when the node is none of Mapping, Sequence and
Scalar, with the "Undefined Node" error; otherwise it returns the Mapping wrapper if the
node is a mapping, else the Sequence wrapper if it is a sequence, else the Scalar wrapper,
each carrying the given path and the node. -/
theorem visitableFactory_classification (p : node.Predicates) (parentPath : String)
    (n : yaml.Node) :
    visitableFactory p parentPath n ≠ .panic ∧
    ((∃ e, visitableFactory p parentPath n = .err e) ↔
      (p.IsMapping n = false ∧ node.IsSequence n = false ∧ p.IsScalar n = false)) ∧
    (p.IsMapping n = false → node.IsSequence n = false → p.IsScalar n = false →
      visitableFactory p parentPath n = .err (.undefinedNode n.Kind n.Tag)) ∧
    (p.IsMapping n = true →
      visitableFactory p parentPath n = .ok (.mappingNode ⟨parentPath, n⟩)) ∧
    (p.IsMapping n = false → node.IsSequence n = true →
      visitableFactory p parentPath n = .ok (.sequenceNode ⟨parentPath, n⟩)) ∧
    (p.IsMapping n = false → node.IsSequence n = false → p.IsScalar n = true →
      visitableFactory p parentPath n = .ok (.scalarNode ⟨parentPath, n⟩)) := by
  unfold visitableFactory
  cases p.IsMapping n <;> cases node.IsSequence n <;> cases p.IsScalar n <;>
    simp [node.CreateMapping, node.CreateSequence, node.CreateScalar]

end Variable

/-! ## Section lookup -/

namespace Variable

open traverse evaluator

theorem findChildLoop_absent (parentNode : yaml.Node) (value : String) :
    ∀ content : List yaml.Node, (∀ kv ∈ entries content, kv.1.Value ≠ value) →
      findChildLoop parentNode value content =
        if content.length % 2 = 0 then .err (.notFound value parentNode) else .panic
  | [], _ => by simp [findChildLoop]
  | [_], _ => by simp [findChildLoop]
  | key :: val :: rest, h => by
    have hkey : key.Value ≠ value := h (key, val) (by simp [entries])
    have hrest := findChildLoop_absent parentNode value rest
      (fun kv hkv => h kv (by simp [entries, hkv]))
    have hlen : (key :: val :: rest).length % 2 = rest.length % 2 := by
      simp only [List.length_cons]
      omega
    rw [hlen]
    simp [findChildLoop, hkey, hrest]

theorem findChildLoop_present (parentNode : yaml.Node) (value : String) :
    ∀ content : List yaml.Node, (∃ kv ∈ entries content, kv.1.Value = value) →
      ∃ kv ∈ entries content, kv.1.Value = value ∧
        findChildLoop parentNode value content = .ok kv
  | [], h => by simp [entries] at h
  | [_], h => by simp [entries] at h
  | key :: val :: rest, h => by
    by_cases hkey : key.Value = value
    · exact ⟨(key, val), by simp [entries], hkey, by simp [findChildLoop, hkey]⟩
    · have hrest : ∃ kv ∈ entries rest, kv.1.Value = value := by
        obtain ⟨kv, hkv, hv⟩ := h
        simp only [entries, List.mem_cons] at hkv
        rcases hkv with rfl | hkv
        · exact absurd hv hkey
        · exact ⟨kv, hkv, hv⟩
      obtain ⟨kv, hkv, hv, hfind⟩ := findChildLoop_present parentNode value rest hrest
      exact ⟨kv, by simp [entries, hkv], hv, by simp [findChildLoop, hkey, hfind]⟩

theorem findChild_ok_hasSection (parentNode : yaml.Node) (value : String)
    (kv : yaml.Node × yaml.Node)
    (h : findChildNodeWithKeyFromMap parentNode value = .ok kv) :
    HasSection parentNode value := by
  unfold findChildNodeWithKeyFromMap at h
  by_cases htag : parentNode.Tag = "!!map"
  · refine ⟨htag, ?_⟩
    by_contra hno
    have habs := findChildLoop_absent parentNode value parentNode.Content
      (fun kv hkv hv => hno ⟨kv, hkv, hv⟩)
    simp only [htag, bne_self_eq_false, Bool.false_eq_true, if_false] at h
    rw [habs] at h
    split at h <;> cases h
  · simp [htag] at h

theorem findChild_of_not_hasSection (parentNode : yaml.Node) (value : String)
    (h : ¬ HasSection parentNode value) :
    findChildNodeWithKeyFromMap parentNode value =
      if parentNode.Tag = "!!map" then
        (if parentNode.Content.length % 2 = 0 then .err (.notFound value parentNode) else .panic)
      else .err (.notMapNode parentNode) := by
  unfold findChildNodeWithKeyFromMap
  by_cases htag : parentNode.Tag = "!!map"
  · simp only [htag, bne_self_eq_false, Bool.false_eq_true, if_false, if_true]
    exact findChildLoop_absent parentNode value parentNode.Content
      (fun kv hkv hv => h ⟨htag, kv, hkv, hv⟩)
  · simp [htag]

end Variable

/-! ## Failure of the pipeline -/

namespace Variable

open traverse evaluator

theorem Parse_some (t : Transforms) (variablesNode : yaml.Node) (m : VariableMap)
    (h : Parse t variablesNode = .returned (some m)) :
    ∃ ka a kl l reducedLet variableMap1,
      findChildNodeWithKeyFromMap variablesNode ArgumentsKey = .ok (ka, a) ∧
      findChildNodeWithKeyFromMap variablesNode LetKey = .ok (kl, l) ∧
      evaluateLet t l (parseArguments ArgumentsKey a emptyMap) =
        .ok (reducedLet, variableMap1) ∧
      m = parseArguments LetKey reducedLet variableMap1 := by
  unfold Parse at h
  cases harg : findChildNodeWithKeyFromMap variablesNode ArgumentsKey with
  | panic => simp [harg] at h
  | err e => simp [harg] at h
  | ok kva =>
    obtain ⟨ka, a⟩ := kva
    simp only [harg] at h
    cases hlet : findChildNodeWithKeyFromMap variablesNode LetKey with
    | panic => simp [hlet] at h
    | err e => simp [hlet] at h
    | ok kvl =>
      obtain ⟨kl, l⟩ := kvl
      simp only [hlet] at h
      cases hev : evaluateLet t l (parseArguments ArgumentsKey a emptyMap) with
      | panic => simp [hev] at h
      | err e => simp [hev] at h
      | ok reduced =>
        obtain ⟨reducedLet, variableMap1⟩ := reduced
        simp only [hev, Outcome.returned.injEq, Option.some.injEq] at h
        exact ⟨ka, a, kl, l, reducedLet, variableMap1, rfl, rfl, hev, h.symm⟩

/-- C2, amended: when the variables node has no `arguments` entry or no `let` entry, `Parse`
yields no map, and it reports no error either. On a node that is not a map, or whose content
has even length (as every mapping built by yaml.v3 has), the section lookup fails with its
"is not map node" or "Not found" error, which `Parse` drops: it returns `nil`. On a map
whose content has odd length, a key without a value at the end, the lookup reads past the
content and `Parse` panics. -/
theorem Parse_missing_section (t : Transforms) (variablesNode : yaml.Node)
    (hmissing : ¬ HasSection variablesNode ArgumentsKey ∨ ¬ HasSection variablesNode LetKey) :
    (∀ m, Parse t variablesNode ≠ .returned (some m)) ∧
    ((variablesNode.Tag = "!!map" → variablesNode.Content.length % 2 = 0) →
      Parse t variablesNode = .returned none ∧
      ∃ key, (key = ArgumentsKey ∨ key = LetKey) ∧
        (findChildNodeWithKeyFromMap variablesNode key = .err (.notMapNode variablesNode) ∨
         findChildNodeWithKeyFromMap variablesNode key = .err (.notFound key variablesNode))) ∧
    (variablesNode.Tag = "!!map" → variablesNode.Content.length % 2 = 1 →
      Parse t variablesNode = .panic) := by
  refine ⟨?_, ?_, ?_⟩
  · intro m hm
    obtain ⟨ka, a, kl, l, -, -, harg, hlet, -, -⟩ := Parse_some t variablesNode m hm
    rcases hmissing with h | h
    · exact h (findChild_ok_hasSection _ _ _ harg)
    · exact h (findChild_ok_hasSection _ _ _ hlet)
  · intro heven
    have hfail : ∀ key, ¬ HasSection variablesNode key →
        findChildNodeWithKeyFromMap variablesNode key = .err (.notMapNode variablesNode) ∨
        findChildNodeWithKeyFromMap variablesNode key = .err (.notFound key variablesNode) := by
      intro key hkey
      rw [findChild_of_not_hasSection _ _ hkey]
      by_cases htag : variablesNode.Tag = "!!map"
      · right
        simp [htag, heven htag]
      · left
        simp [htag]
    by_cases harg : HasSection variablesNode ArgumentsKey
    · have hlet : ¬ HasSection variablesNode LetKey := by
        rcases hmissing with h | h
        · exact absurd harg h
        · exact h
      refine ⟨?_, LetKey, Or.inr rfl, hfail _ hlet⟩
      obtain ⟨kv, -, -, hfound⟩ :=
        findChildLoop_present variablesNode ArgumentsKey variablesNode.Content harg.2
      have hfind : findChildNodeWithKeyFromMap variablesNode ArgumentsKey = .ok kv := by
        simp [findChildNodeWithKeyFromMap, harg.1, hfound]
      unfold Parse
      rw [hfind]
      rcases hfail _ hlet with h | h <;> simp [h]
    · refine ⟨?_, ArgumentsKey, Or.inl rfl, hfail _ harg⟩
      unfold Parse
      rcases hfail _ harg with h | h <;> simp [h]
  · intro htag hodd
    have hpanic : ∀ key, ¬ HasSection variablesNode key →
        findChildNodeWithKeyFromMap variablesNode key = .panic := by
      intro key hkey
      rw [findChild_of_not_hasSection _ _ hkey]
      simp [htag, hodd]
    by_cases harg : HasSection variablesNode ArgumentsKey
    · have hlet : ¬ HasSection variablesNode LetKey := by
        rcases hmissing with h | h
        · exact absurd harg h
        · exact h
      obtain ⟨kv, -, -, hfound⟩ :=
        findChildLoop_present variablesNode ArgumentsKey variablesNode.Content harg.2
      have hfind : findChildNodeWithKeyFromMap variablesNode ArgumentsKey = .ok kv := by
        simp [findChildNodeWithKeyFromMap, harg.1, hfound]
      unfold Parse
      rw [hfind]
      simp [hpanic _ hlet]
    · unfold Parse
      simp [hpanic _ harg]

/-- A variables node with `arguments` only. -/
theorem Parse_missing_section_witness :
    ¬ HasSection (Sample.mapping [Sample.str "arguments", Sample.str "v"]) LetKey ∧
    Parse Sample.transforms (Sample.mapping [Sample.str "arguments", Sample.str "v"]) =
      .returned none := by
  have hno : ¬ HasSection (Sample.mapping [Sample.str "arguments", Sample.str "v"]) LetKey := by
    simp [HasSection, entries, Sample.mapping, Sample.str, yaml.Node.Content, yaml.Node.Value,
      LetKey]
  exact ⟨hno, ((Parse_missing_section Sample.transforms _ (Or.inr hno)).2.1 (fun _ => rfl)).1⟩

/-- C2, as stated, fails: `Parse` has no error result, so a missing section is not reported
as such. The node `{arguments: v}` has no `let` entry and `Parse` returns `nil`; the node
`{arguments: v, let: !Var x}` has both entries, its let evaluation fails in a transform,
and `Parse` returns the same `nil`: nothing computed from what `Parse` returns tells a
missing section from another failure. On `{arguments: v, let}`, a mapping whose last key
has no value, `Parse` does not return at all. -/
theorem Parse_hides_missing_section :
    ¬ HasSection (Sample.mapping [Sample.str "arguments", Sample.str "v"]) LetKey ∧
    Parse Sample.transforms (Sample.mapping [Sample.str "arguments", Sample.str "v"]) =
      .returned none ∧
    HasSection
      (Sample.mapping [Sample.str "arguments", Sample.str "v", Sample.str "let", Sample.var "x"])
      ArgumentsKey ∧
    HasSection
      (Sample.mapping [Sample.str "arguments", Sample.str "v", Sample.str "let", Sample.var "x"])
      LetKey ∧
    evaluateLet Sample.transforms (Sample.var "x")
      (parseArguments ArgumentsKey (Sample.str "v") emptyMap) = .err (.transform "x") ∧
    Parse Sample.transforms
      (Sample.mapping [Sample.str "arguments", Sample.str "v", Sample.str "let", Sample.var "x"])
      = .returned none ∧
    ¬ HasSection (Sample.mapping [Sample.str "arguments", Sample.str "v", Sample.str "let"])
      LetKey ∧
    Parse Sample.transforms
      (Sample.mapping [Sample.str "arguments", Sample.str "v", Sample.str "let"]) = .panic ∧
    ¬ ∃ missingSection : Outcome (Option VariableMap) → Bool,
      (∀ (t : Transforms) (variablesNode : yaml.Node),
        ¬ HasSection variablesNode ArgumentsKey ∨ ¬ HasSection variablesNode LetKey →
        missingSection (Parse t variablesNode) = true) ∧
      (∀ (t : Transforms) (variablesNode : yaml.Node),
        HasSection variablesNode ArgumentsKey → HasSection variablesNode LetKey →
        missingSection (Parse t variablesNode) = false) := by
  have hno : ¬ HasSection (Sample.mapping [Sample.str "arguments", Sample.str "v"]) LetKey := by
    simp [HasSection, entries, Sample.mapping, Sample.str, yaml.Node.Content, yaml.Node.Value,
      LetKey]
  have harg : HasSection
      (Sample.mapping [Sample.str "arguments", Sample.str "v", Sample.str "let", Sample.var "x"])
      ArgumentsKey := by
    simp [HasSection, entries, Sample.mapping, Sample.str, yaml.Node.Content, yaml.Node.Value,
      yaml.Node.Tag, ArgumentsKey]
  have hlet : HasSection
      (Sample.mapping [Sample.str "arguments", Sample.str "v", Sample.str "let", Sample.var "x"])
      LetKey := by
    simp [HasSection, entries, Sample.mapping, Sample.str, yaml.Node.Content, yaml.Node.Value,
      yaml.Node.Tag, LetKey]
  have hodd : ¬ HasSection
      (Sample.mapping [Sample.str "arguments", Sample.str "v", Sample.str "let"]) LetKey := by
    simp [HasSection, entries, Sample.mapping, Sample.str, yaml.Node.Content, yaml.Node.Value,
      LetKey]
  refine ⟨hno, rfl, harg, hlet, rfl, rfl, hodd, rfl, ?_⟩
  rintro ⟨missingSection, hmissing, hpresent⟩
  have h1 := hmissing Sample.transforms
    (Sample.mapping [Sample.str "arguments", Sample.str "v"]) (Or.inr hno)
  have h2 := hpresent Sample.transforms
    (Sample.mapping [Sample.str "arguments", Sample.str "v", Sample.str "let", Sample.var "x"])
    harg hlet
  have e1 : Parse Sample.transforms (Sample.mapping [Sample.str "arguments", Sample.str "v"]) =
      .returned none := rfl
  have e2 : Parse Sample.transforms
      (Sample.mapping [Sample.str "arguments", Sample.str "v", Sample.str "let", Sample.var "x"])
      = .returned none := rfl
  rw [e1] at h1
  rw [e2, h1] at h2
  exact Bool.noConfusion h2

/-- C3: when let evaluation fails, `Parse` returns `nil`: no map at all, whatever phase 1
had already bound. -/
theorem Parse_no_partial_map (t : Transforms) (variablesNode ka a kl l : yaml.Node) (e : Error)
    (harguments : findChildNodeWithKeyFromMap variablesNode ArgumentsKey = .ok (ka, a))
    (hlet : findChildNodeWithKeyFromMap variablesNode LetKey = .ok (kl, l))
    (hfail : evaluateLet t l (parseArguments ArgumentsKey a emptyMap) = .err e) :
    Parse t variablesNode = .returned none ∧ ∀ m, Parse t variablesNode ≠ .returned (some m) := by
  have hnil : Parse t variablesNode = .returned none := by
    unfold Parse
    simp [harguments, hlet, hfail]
  exact ⟨hnil, fun m hm => by simp [hnil] at hm⟩

/-- Phase 1 binds `arguments.env`; the `let` block names an unbound path; `Parse` is `nil`. -/
theorem Parse_no_partial_map_witness :
    parseArguments ArgumentsKey (Sample.mapping [Sample.str "env", Sample.str "prod"]) emptyMap
        "arguments.env" = some "prod" ∧
    Parse Sample.transforms
      (Sample.mapping [Sample.str "arguments", Sample.mapping [Sample.str "env", Sample.str "prod"],
        Sample.str "let", Sample.mapping [Sample.str "x", Sample.var "arguments.missing"]]) =
      .returned none :=
  ⟨by decide, (Parse_no_partial_map Sample.transforms
    (Sample.mapping [Sample.str "arguments", Sample.mapping [Sample.str "env", Sample.str "prod"],
      Sample.str "let", Sample.mapping [Sample.str "x", Sample.var "arguments.missing"]])
    (Sample.str "arguments")
    (Sample.mapping [Sample.str "env", Sample.str "prod"]) (Sample.str "let")
    (Sample.mapping [Sample.str "x", Sample.var "arguments.missing"])
    (.transform "arguments.missing") rfl rfl rfl).1⟩

end Variable

/-! ## Error propagation -/

namespace Variable

open traverse evaluator

theorem evaluateLetLoop_append (t : Transforms) (before after : List NodeInfo)
    (root : yaml.Node) (variableMap : VariableMap) :
    evaluateLetLoop t (before ++ after) root variableMap =
      match evaluateLetLoop t before root variableMap with
      | .ok (root1, variableMap1) => evaluateLetLoop t after root1 variableMap1
      | .err e => .err e
      | .panic => .panic := by
  induction before generalizing root variableMap with
  | nil => rfl
  | cons nodeInfo rest ih =>
    simp only [List.cons_append, evaluateLetLoop]
    cases evaluateRecord t root variableMap nodeInfo with
    | ok state => exact ih state.1 state.2
    | err e => rfl
    | panic => rfl

/-- Whatever error let evaluation returns, `Parse` answers `nil`. -/
theorem Parse_of_evaluateLet_err (t : Transforms) (variablesNode ka a kl l : yaml.Node)
    (e : Error)
    (harguments : findChildNodeWithKeyFromMap variablesNode ArgumentsKey = .ok (ka, a))
    (hlet : findChildNodeWithKeyFromMap variablesNode LetKey = .ok (kl, l))
    (hfail : evaluateLet t l (parseArguments ArgumentsKey a emptyMap) = .err e) :
    Parse t variablesNode = .returned none := by
  unfold Parse
  simp [harguments, hlet, hfail]

/-- The error of a record is the error of the first of its four transforms that fails. -/
theorem evaluateRecord_err (t : Transforms) (root : yaml.Node) (variableMap : VariableMap)
    (nodeInfo : NodeInfo) (e : Error)
    (h : evaluateRecord t root variableMap nodeInfo = .err e) :
    applyVariableAt t root nodeInfo.Node variableMap = .err e ∨
    (∃ root1 variableMap1,
      applyVariableAt t root nodeInfo.Node variableMap = .ok (root1, variableMap1) ∧
      (applyAt root1 nodeInfo.Node t.EvaluateSubstitution = .err e ∨
      ∃ root2, applyAt root1 nodeInfo.Node t.EvaluateSubstitution = .ok root2 ∧
        (applyAt root2 nodeInfo.Node t.EvaluateEquals = .err e ∨
        ∃ root3, applyAt root2 nodeInfo.Node t.EvaluateEquals = .ok root3 ∧
          applyAt root3 nodeInfo.Node t.EvaluateIf = .err e))) := by
  unfold evaluateRecord at h
  cases h1 : applyVariableAt t root nodeInfo.Node variableMap with
  | panic => simp [h1] at h
  | err e1 =>
    simp only [h1, Result.err.injEq] at h
    exact Or.inl (by rw [h])
  | ok state1 =>
    obtain ⟨root1, variableMap1⟩ := state1
    simp only [h1] at h
    refine Or.inr ⟨root1, variableMap1, rfl, ?_⟩
    cases h2 : applyAt root1 nodeInfo.Node t.EvaluateSubstitution with
    | panic => simp [h2] at h
    | err e2 =>
      simp only [h2, Result.err.injEq] at h
      exact Or.inl (by rw [h])
    | ok root2 =>
      simp only [h2] at h
      refine Or.inr ⟨root2, rfl, ?_⟩
      cases h3 : applyAt root2 nodeInfo.Node t.EvaluateEquals with
      | panic => simp [h3] at h
      | err e3 =>
        simp only [h3, Result.err.injEq] at h
        exact Or.inl (by rw [h])
      | ok root3 =>
        simp only [h3] at h
        refine Or.inr ⟨root3, rfl, ?_⟩
        cases h4 : applyAt root3 nodeInfo.Node t.EvaluateIf with
        | panic => simp [h4] at h
        | err e4 =>
          simp only [h4, Result.err.injEq] at h
          rw [h]
        | ok root4 => simp [h4] at h

/-- C4, as stated, fails: the caller of `Parse` does not receive the error. The `let`
blocks `!Var x` and `!Var y` stop let evaluation with two different errors, and `Parse`
returns `nil` for both; so nothing computed from what `Parse` returns is the originating
error. -/
theorem Parse_drops_error :
    evaluateLet Sample.transforms (Sample.var "x")
      (parseArguments ArgumentsKey (Sample.str "v") emptyMap) = .err (.transform "x") ∧
    evaluateLet Sample.transforms (Sample.var "y")
      (parseArguments ArgumentsKey (Sample.str "v") emptyMap) = .err (.transform "y") ∧
    Parse Sample.transforms
      (Sample.mapping [Sample.str "arguments", Sample.str "v", Sample.str "let", Sample.var "x"])
      = .returned none ∧
    Parse Sample.transforms
      (Sample.mapping [Sample.str "arguments", Sample.str "v", Sample.str "let", Sample.var "y"])
      = .returned none ∧
    ¬ ∃ errorOf : Outcome (Option VariableMap) → Error,
      ∀ (t : Transforms) (variablesNode ka a kl l : yaml.Node) (e : Error),
        findChildNodeWithKeyFromMap variablesNode ArgumentsKey = .ok (ka, a) →
        findChildNodeWithKeyFromMap variablesNode LetKey = .ok (kl, l) →
        evaluateLet t l (parseArguments ArgumentsKey a emptyMap) = .err e →
        errorOf (Parse t variablesNode) = e := by
  refine ⟨rfl, rfl, rfl, rfl, ?_⟩
  rintro ⟨errorOf, h⟩
  have hx := h Sample.transforms
    (Sample.mapping [Sample.str "arguments", Sample.str "v", Sample.str "let", Sample.var "x"])
    (Sample.str "arguments") (Sample.str "v") (Sample.str "let") (Sample.var "x")
    (.transform "x") rfl rfl rfl
  have hy := h Sample.transforms
    (Sample.mapping [Sample.str "arguments", Sample.str "v", Sample.str "let", Sample.var "y"])
    (Sample.str "arguments") (Sample.str "v") (Sample.str "let") (Sample.var "y")
    (.transform "y") rfl rfl rfl
  have hsame :
      Parse Sample.transforms
        (Sample.mapping [Sample.str "arguments", Sample.str "v", Sample.str "let", Sample.var "x"])
      = Parse Sample.transforms
        (Sample.mapping [Sample.str "arguments", Sample.str "v", Sample.str "let", Sample.var "y"]) :=
    rfl
  rw [hsame, hy] at hx
  simp at hx

/-- C4, amended: when the records before one all succeed and a transform fails on that
record, `evaluateLet` stops there and returns that error, whatever the later records would
do; the error is that of the first failing transform of the record, in the order Variable,
Substitution, Equals, If; `Parse` then returns `nil`, without the error. -/
theorem evaluateLet_first_error (t : Transforms) (variablesNode ka a kl l : yaml.Node)
    (before : List NodeInfo) (failing : NodeInfo) (after : List NodeInfo)
    (root : yaml.Node) (variableMap : VariableMap) (e : Error)
    (harguments : findChildNodeWithKeyFromMap variablesNode ArgumentsKey = .ok (ka, a))
    (hlet : findChildNodeWithKeyFromMap variablesNode LetKey = .ok (kl, l))
    (hrecords : Traverse l .PostOrder = before ++ failing :: after)
    (hbefore : evaluateLetLoop t before l (parseArguments ArgumentsKey a emptyMap) =
      .ok (root, variableMap))
    (hfailing : evaluateRecord t root variableMap failing = .err e) :
    evaluateLet t l (parseArguments ArgumentsKey a emptyMap) = .err e ∧
    Parse t variablesNode = .returned none ∧
    (applyVariableAt t root failing.Node variableMap = .err e ∨
      (∃ root1 variableMap1,
        applyVariableAt t root failing.Node variableMap = .ok (root1, variableMap1) ∧
        (applyAt root1 failing.Node t.EvaluateSubstitution = .err e ∨
        ∃ root2, applyAt root1 failing.Node t.EvaluateSubstitution = .ok root2 ∧
          (applyAt root2 failing.Node t.EvaluateEquals = .err e ∨
          ∃ root3, applyAt root2 failing.Node t.EvaluateEquals = .ok root3 ∧
            applyAt root3 failing.Node t.EvaluateIf = .err e)))) := by
  have hev : evaluateLet t l (parseArguments ArgumentsKey a emptyMap) = .err e := by
    unfold evaluateLet
    rw [hrecords, evaluateLetLoop_append, hbefore]
    simp [evaluateLetLoop, hfailing]
  exact ⟨hev, Parse_of_evaluateLet_err t variablesNode ka a kl l e harguments hlet hev,
    evaluateRecord_err t root variableMap failing e hfailing⟩

/-- In `let: {x: !Var arguments.env, y: !Var nope, z: !Var gone}` the record of `x` is
reduced, the record of `y` fails, and its error is the one `evaluateLet` returns; the
record of `z`, which would fail too, is never reached. -/
theorem evaluateLet_first_error_witness :
    evaluateLet Sample.transforms
      (Sample.mapping [Sample.str "x", Sample.var "arguments.env", Sample.str "y",
        Sample.var "nope", Sample.str "z", Sample.var "gone"])
      (parseArguments ArgumentsKey (Sample.mapping [Sample.str "env", Sample.str "prod"])
        emptyMap) = .err (.transform "nope") :=
  (evaluateLet_first_error Sample.transforms
    (Sample.mapping [Sample.str "arguments",
      Sample.mapping [Sample.str "env", Sample.str "prod"],
      Sample.str "let",
      Sample.mapping [Sample.str "x", Sample.var "arguments.env", Sample.str "y",
        Sample.var "nope", Sample.str "z", Sample.var "gone"]])
    (Sample.str "arguments") (Sample.mapping [Sample.str "env", Sample.str "prod"])
    (Sample.str "let")
    (Sample.mapping [Sample.str "x", Sample.var "arguments.env", Sample.str "y",
        Sample.var "nope", Sample.str "z", Sample.var "gone"])
    [⟨".x", [1], true⟩] ⟨".y", [3], true⟩ [⟨".z", [5], true⟩, ⟨"", [], false⟩]
    (Sample.mapping [Sample.str "x", Sample.str "prod", Sample.str "y",
        Sample.var "nope", Sample.str "z", Sample.var "gone"])
    (parseArguments ArgumentsKey (Sample.mapping [Sample.str "env", Sample.str "prod"])
      emptyMap)
    (.transform "nope") rfl rfl rfl rfl rfl).1

end Variable

/-! ## Harvesting -/

namespace Variable

open traverse evaluator

theorem append_left_cancel ( keyPrefix p q : String) (h : keyPrefix ++ p = keyPrefix ++ q) :
    p = q := by
  have hdata := congrArg String.data h
  simp only [String.data_append] at hdata
  exact String.ext (List.append_cancel_left hdata)

theorem arguments_ne_let (p q : String) : ArgumentsKey ++ p ≠ LetKey ++ q := by
  intro h
  have hdata := congrArg String.data h
  simp only [String.data_append] at hdata
  have hhead := congrArg List.head? hdata
  simp [ArgumentsKey, LetKey] at hhead

theorem harvest_append ( keyPrefix : String) (root : yaml.Node) (before after : List NodeInfo)
    (variableMap : VariableMap) :
    harvest keyPrefix root (before ++ after) variableMap =
      harvest keyPrefix root after (harvest keyPrefix root before variableMap) := by
  induction before generalizing variableMap with
  | nil => rfl
  | cons nodeInfo rest ih =>
    simp only [List.cons_append, harvest]
    split <;> exact ih _

/-- A key that no terminal record writes keeps what it was bound to. -/
theorem harvest_other ( keyPrefix : String) (root : yaml.Node) (records : List NodeInfo)
    (variableMap : VariableMap) (k : String)
    (h : ∀ r ∈ records, r.Terminal = true → keyPrefix ++ r.Path ≠ k) :
    harvest keyPrefix root records variableMap k = variableMap k := by
  induction records generalizing variableMap with
  | nil => rfl
  | cons nodeInfo rest ih =>
    have hrest : ∀ r ∈ rest, r.Terminal = true → keyPrefix ++ r.Path ≠ k :=
      fun r hr => h r (List.mem_cons_of_mem _ hr)
    simp only [harvest]
    split
    · next hterminal =>
      rw [ih _ hrest]
      have hne := h nodeInfo (List.mem_cons_self _ _) hterminal
      simp [store, Ne.symm hne]
    · exact ih _ hrest

/-- The keys bound after a pass: those bound before and those of the terminal records. -/
theorem harvest_keys ( keyPrefix : String) (root : yaml.Node) (records : List NodeInfo)
    (variableMap : VariableMap) (k : String) :
    k ∈ keys (harvest keyPrefix root records variableMap) ↔
      k ∈ keys variableMap ∨ ∃ r ∈ records, r.Terminal = true ∧ k = keyPrefix ++ r.Path := by
  induction records generalizing variableMap with
  | nil => simp [harvest]
  | cons nodeInfo rest ih =>
    simp only [harvest]
    split
    · next hterminal =>
      rw [ih]
      constructor
      · rintro (hk | ⟨r, hr, ht, hkey⟩)
        · by_cases heq : k = keyPrefix ++ nodeInfo.Path
          · exact Or.inr ⟨nodeInfo, List.mem_cons_self _ _, hterminal, heq⟩
          · left
            simpa [keys, store, heq, Set.mem_def] using hk
        · exact Or.inr ⟨r, List.mem_cons_of_mem _ hr, ht, hkey⟩
      · rintro (hk | ⟨r, hr, ht, hkey⟩)
        · left
          by_cases heq : k = keyPrefix ++ nodeInfo.Path
          · simp [keys, store, heq, Set.mem_def]
          · simpa [keys, store, heq, Set.mem_def] using hk
        · rcases List.mem_cons.1 hr with rfl | hr
          · left
            simp [keys, store, hkey, Set.mem_def]
          · exact Or.inr ⟨r, hr, ht, hkey⟩
    · next hterminal =>
      rw [ih]
      constructor
      · rintro (hk | ⟨r, hr, ht, hkey⟩)
        · exact Or.inl hk
        · exact Or.inr ⟨r, List.mem_cons_of_mem _ hr, ht, hkey⟩
      · rintro (hk | ⟨r, hr, ht, hkey⟩)
        · exact Or.inl hk
        · rcases List.mem_cons.1 hr with rfl | hr
          · exact absurd ht hterminal
          · exact Or.inr ⟨r, hr, ht, hkey⟩

/-- The last terminal record with a given path decides what its key is bound to. -/
theorem harvest_last ( keyPrefix : String) (root : yaml.Node) (before : List NodeInfo)
    (r : NodeInfo) (after : List NodeInfo) (variableMap : VariableMap)
    (hterminal : r.Terminal = true)
    (hafter : ∀ r2 ∈ after, r2.Terminal = true → r2.Path ≠ r.Path) :
    harvest keyPrefix root (before ++ r :: after) variableMap (keyPrefix ++ r.Path) =
      some (deref r.Node root).Value := by
  rw [harvest_append]
  simp only [harvest, hterminal, if_true]
  rw [harvest_other]
  · simp [store]
  · intro r2 hr2 ht2 heq
    exact hafter r2 hr2 ht2 (append_left_cancel keyPrefix _ _ heq)

/-- A pass over a map already holding bindings: its own bindings first, then the old ones. -/
theorem harvest_union ( keyPrefix : String) (root : yaml.Node) (records : List NodeInfo)
    (variableMap : VariableMap) (k : String) :
    harvest keyPrefix root records variableMap k =
      (harvest keyPrefix root records emptyMap k).orElse (fun _ => variableMap k) := by
  induction records using List.reverseRecOn with
  | nil => simp [harvest, emptyMap]
  | append_singleton rest nodeInfo ih =>
    rw [harvest_append, harvest_append]
    simp only [harvest]
    split
    · by_cases heq : k = keyPrefix ++ nodeInfo.Path
      · simp [store, heq]
      · simpa [store, heq] using ih
    · exact ih

/-- A record leaves the bindings as they are when the Variable transform does. -/
theorem evaluateRecord_readsOnly (t : Transforms) (hreads : t.ReadsOnly) (root : yaml.Node)
    (variableMap : VariableMap) (nodeInfo : NodeInfo) (root1 : yaml.Node)
    (variableMap1 : VariableMap)
    (h : evaluateRecord t root variableMap nodeInfo = .ok (root1, variableMap1)) :
    variableMap1 = variableMap := by
  unfold evaluateRecord at h
  cases h1 : applyVariableAt t root nodeInfo.Node variableMap with
  | panic => simp [h1] at h
  | err e => simp [h1] at h
  | ok state1 =>
    obtain ⟨root2, variableMap2⟩ := state1
    have hsame : variableMap2 = variableMap := by
      unfold applyVariableAt at h1
      cases hv : t.EvaluateVariable (deref nodeInfo.Node root) variableMap with
      | panic => simp [hv] at h1
      | err e => simp [hv] at h1
      | ok reduced =>
        obtain ⟨n, variableMap3⟩ := reduced
        simp only [hv, Result.ok.injEq, Prod.mk.injEq] at h1
        rw [← h1.2]
        exact hreads _ _ _ _ hv
    simp only [h1] at h
    cases h2 : applyAt root2 nodeInfo.Node t.EvaluateSubstitution with
    | panic => simp [h2] at h
    | err e => simp [h2] at h
    | ok root3 =>
      simp only [h2] at h
      cases h3 : applyAt root3 nodeInfo.Node t.EvaluateEquals with
      | panic => simp [h3] at h
      | err e => simp [h3] at h
      | ok root4 =>
        simp only [h3] at h
        cases h4 : applyAt root4 nodeInfo.Node t.EvaluateIf with
        | panic => simp [h4] at h
        | err e => simp [h4] at h
        | ok root5 =>
          simp only [h4, Result.ok.injEq, Prod.mk.injEq] at h
          rw [← h.2, hsame]

/-- The let pass leaves the bindings as they are when the Variable transform does. -/
theorem evaluateLetLoop_readsOnly (t : Transforms) (hreads : t.ReadsOnly)
    (records : List NodeInfo) (root : yaml.Node) (variableMap : VariableMap)
    (root1 : yaml.Node) (variableMap1 : VariableMap)
    (h : evaluateLetLoop t records root variableMap = .ok (root1, variableMap1)) :
    variableMap1 = variableMap := by
  induction records generalizing root variableMap with
  | nil =>
    simp only [evaluateLetLoop, Result.ok.injEq, Prod.mk.injEq] at h
    exact h.2.symm
  | cons nodeInfo rest ih =>
    simp only [evaluateLetLoop] at h
    cases hrec : evaluateRecord t root variableMap nodeInfo with
    | panic => simp [hrec] at h
    | err e => simp [hrec] at h
    | ok state =>
      obtain ⟨root2, variableMap2⟩ := state
      simp only [hrec] at h
      rw [ih root2 variableMap2 h]
      exact evaluateRecord_readsOnly t hreads root variableMap nodeInfo root2 variableMap2 hrec

/-- The sample transforms only read the bindings. -/
theorem Sample_transforms_readsOnly : Sample.transforms.ReadsOnly := by
  intro n variableMap reduced variableMap1 h
  simp only [Sample.transforms] at h
  split at h
  · split at h
    · simp only [Result.ok.injEq, Prod.mk.injEq] at h
      exact h.2.symm
    · cases h
  · simp only [Result.ok.injEq, Prod.mk.injEq] at h
    exact h.2.symm

/-- C5, as stated, fails: in `{a.b: "1", a: {b: "2"}}` the leaf `"1"` is a terminal record
with path `.a.b`, and the key `arguments.a.b` is bound to `"2"`, the value of the later
leaf with the same path. -/
theorem parseArguments_dotted_key :
    (⟨".a.b", [1], true⟩ : NodeInfo) ∈ Traverse Sample.dotted .PreOrder ∧
    (deref [1] Sample.dotted).Value = "1" ∧
    parseArguments ArgumentsKey Sample.dotted emptyMap (ArgumentsKey ++ ".a.b") = some "2" := by
  refine ⟨by decide, by decide, by decide⟩

/-- C5, amended: argument harvesting binds exactly the keys `"arguments" + path` of the
terminal records of the pre-order traversal (non-terminal records bind nothing), and each
such key is bound to the value of the last terminal record with that path: to a leaf's own
value whenever no later terminal record has the same path. -/
theorem parseArguments_bindings (arguments : yaml.Node) :
    (∀ k, k ∈ keys (parseArguments ArgumentsKey arguments emptyMap) ↔
      ∃ r ∈ Traverse arguments .PreOrder, r.Terminal = true ∧ k = ArgumentsKey ++ r.Path) ∧
    (∀ before r after, Traverse arguments .PreOrder = before ++ r :: after →
      r.Terminal = true → (∀ r2 ∈ after, r2.Terminal = true → r2.Path ≠ r.Path) →
      parseArguments ArgumentsKey arguments emptyMap (ArgumentsKey ++ r.Path) =
        some (deref r.Node arguments).Value) := by
  constructor
  · intro k
    unfold parseArguments
    rw [harvest_keys]
    simp [keys, emptyMap, Set.mem_def]
  · intro before r after hrecords hterminal hafter
    unfold parseArguments
    rw [hrecords]
    exact harvest_last _ _ _ _ _ _ hterminal hafter

/-- In `{a.b: "1", a: {b: "2"}}` the last leaf with path `.a.b` is the one valued `"2"`. -/
theorem parseArguments_bindings_witness :
    parseArguments ArgumentsKey Sample.dotted emptyMap (ArgumentsKey ++ ".a.b") =
      some (deref [3, 1] Sample.dotted).Value :=
  (parseArguments_bindings Sample.dotted).2
    [⟨"", [], false⟩, ⟨".a.b", [1], true⟩, ⟨".a", [3], false⟩] ⟨".a.b", [3, 1], true⟩ []
    (by decide) rfl (by simp)

/-- C6, as stated, fails: `Parse` succeeds on the sample seed, the reduced `let` tree
`{x.y: "prod", x: {y: "2"}}` has the terminal leaf `"prod"` at path `.x.y`, and the key
`let.x.y` is bound to `"2"`. -/
theorem Parse_dotted_let_key :
    evaluateLet Sample.transforms Sample.seedLet
        (parseArguments ArgumentsKey Sample.seedArguments emptyMap) =
      .ok (Sample.seedReducedLet, parseArguments ArgumentsKey Sample.seedArguments emptyMap) ∧
    Parse Sample.transforms Sample.seed =
      .returned (some (parseArguments LetKey Sample.seedReducedLet
        (parseArguments ArgumentsKey Sample.seedArguments emptyMap))) ∧
    (⟨".x.y", [1], true⟩ : NodeInfo) ∈ Traverse Sample.seedReducedLet .PreOrder ∧
    (deref [1] Sample.seedReducedLet).Value = "prod" ∧
    parseArguments LetKey Sample.seedReducedLet
      (parseArguments ArgumentsKey Sample.seedArguments emptyMap) (LetKey ++ ".x.y") =
        some "2" := by
  refine ⟨rfl, rfl, by decide, by decide, by decide⟩

/-- C6, amended: when `Parse` succeeds (the transforms only reading the bindings, §4.4),
both sections were found, let evaluation succeeded on the map of phase 1, and the result is
the phase-3 harvest of the reduced `let` tree on top of the phase-1 harvest of the
`arguments` tree: the union of the two, with exactly the keys `"arguments" + path` and
`"let" + path` of their terminal records, each `let` key bound to the value of the last
terminal leaf of the reduced tree with that path. -/
theorem Parse_union (t : Transforms) (hreads : t.ReadsOnly) (variablesNode : yaml.Node)
    (m : VariableMap) (hparse : Parse t variablesNode = .returned (some m)) :
    ∃ ka a kl l reducedLet,
      findChildNodeWithKeyFromMap variablesNode ArgumentsKey = .ok (ka, a) ∧
      findChildNodeWithKeyFromMap variablesNode LetKey = .ok (kl, l) ∧
      evaluateLet t l (parseArguments ArgumentsKey a emptyMap) =
        .ok (reducedLet, parseArguments ArgumentsKey a emptyMap) ∧
      m = parseArguments LetKey reducedLet (parseArguments ArgumentsKey a emptyMap) ∧
      (∀ k, m k = (parseArguments LetKey reducedLet emptyMap k).orElse
        (fun _ => parseArguments ArgumentsKey a emptyMap k)) ∧
      (∀ k, k ∈ keys m ↔
        (∃ r ∈ Traverse a .PreOrder, r.Terminal = true ∧ k = ArgumentsKey ++ r.Path) ∨
        (∃ r ∈ Traverse reducedLet .PreOrder, r.Terminal = true ∧ k = LetKey ++ r.Path)) ∧
      (∀ before r after, Traverse reducedLet .PreOrder = before ++ r :: after →
        r.Terminal = true → (∀ r2 ∈ after, r2.Terminal = true → r2.Path ≠ r.Path) →
        m (LetKey ++ r.Path) = some (deref r.Node reducedLet).Value) := by
  obtain ⟨ka, a, kl, l, reducedLet, variableMap1, harg, hlet, hev, hm⟩ :=
    Parse_some t variablesNode m hparse
  obtain rfl : variableMap1 = parseArguments ArgumentsKey a emptyMap :=
    evaluateLetLoop_readsOnly t hreads _ _ _ _ _ hev
  refine ⟨ka, a, kl, l, reducedLet, harg, hlet, hev, hm, ?_, ?_, ?_⟩
  · intro k
    rw [hm]
    exact harvest_union _ _ _ _ _
  · intro k
    rw [hm]
    unfold parseArguments
    rw [harvest_keys, harvest_keys]
    simp [keys, emptyMap, Set.mem_def]
  · intro before r after hrecords hterminal hafter
    rw [hm]
    unfold parseArguments
    rw [hrecords]
    exact harvest_last _ _ _ _ _ _ hterminal hafter

/-- The sample seed: the keys of the returned map are those of the two harvests. -/
theorem Parse_union_witness :
    Parse Sample.transforms Sample.seed =
      .returned (some (parseArguments LetKey Sample.seedReducedLet
        (parseArguments ArgumentsKey Sample.seedArguments emptyMap))) ∧
    ∀ k, k ∈ keys (parseArguments LetKey Sample.seedReducedLet
        (parseArguments ArgumentsKey Sample.seedArguments emptyMap)) ↔
      (∃ r ∈ Traverse Sample.seedArguments .PreOrder,
        r.Terminal = true ∧ k = ArgumentsKey ++ r.Path) ∨
      (∃ r ∈ Traverse Sample.seedReducedLet .PreOrder,
        r.Terminal = true ∧ k = LetKey ++ r.Path) := by
  obtain ⟨ka, a, kl, l, reducedLet, harg, hlet, hev, -, -, hkeys, -⟩ :=
    Parse_union Sample.transforms Sample_transforms_readsOnly Sample.seed
      (parseArguments LetKey Sample.seedReducedLet
        (parseArguments ArgumentsKey Sample.seedArguments emptyMap)) rfl
  have harg2 : findChildNodeWithKeyFromMap Sample.seed ArgumentsKey =
      .ok (Sample.str "arguments", Sample.seedArguments) := rfl
  have hlet2 : findChildNodeWithKeyFromMap Sample.seed LetKey =
      .ok (Sample.str "let", Sample.seedLet) := rfl
  rw [harg2] at harg
  rw [hlet2] at hlet
  simp only [Result.ok.injEq, Prod.mk.injEq] at harg hlet
  obtain ⟨-, rfl⟩ := harg
  obtain ⟨-, rfl⟩ := hlet
  have hev2 : evaluateLet Sample.transforms Sample.seedLet
      (parseArguments ArgumentsKey Sample.seedArguments emptyMap) =
        .ok (Sample.seedReducedLet, parseArguments ArgumentsKey Sample.seedArguments emptyMap) :=
    rfl
  rw [hev2] at hev
  simp only [Result.ok.injEq, Prod.mk.injEq] at hev
  obtain ⟨rfl, -⟩ := hev
  exact ⟨rfl, hkeys⟩

/-- C7, as stated, fails: in `{"s[0]": "p", s: ["q"]}` the second and the fourth record of
the pre-order traversal are two terminal records with the path `.s[0]`; both write the key
`arguments.s[0]`, and the second write replaces the first. -/
theorem harvest_writes_key_twice :
    (Traverse Sample.indexed .PreOrder)[1]? = some ⟨".s[0]", [1], true⟩ ∧
    (Traverse Sample.indexed .PreOrder)[3]? = some ⟨".s[0]", [3, 0], true⟩ ∧
    (deref [1] Sample.indexed).Value = "p" ∧
    (deref [3, 0] Sample.indexed).Value = "q" ∧
    parseArguments ArgumentsKey Sample.indexed emptyMap (ArgumentsKey ++ ".s[0]") =
      some "q" := by
  refine ⟨by decide, by decide, by decide, by decide, by decide⟩

/-- C7, amended: a key written by argument harvesting is never a key written by let
harvesting, so when `Parse` succeeds (the transforms only reading the bindings, §4.4) every
key bound by phase 1 has, in the returned map, the value phase 1 left for it; within a
phase two terminal records write the same key exactly when they have the same path. -/
theorem Parse_keeps_argument_bindings (t : Transforms) (hreads : t.ReadsOnly)
    (variablesNode ka a : yaml.Node) (m : VariableMap)
    (harguments : findChildNodeWithKeyFromMap variablesNode ArgumentsKey = .ok (ka, a))
    (hparse : Parse t variablesNode = .returned (some m)) :
    (∀ r1 r2 : NodeInfo, ArgumentsKey ++ r1.Path ≠ LetKey ++ r2.Path) ∧
    (∀ k value, parseArguments ArgumentsKey a emptyMap k = some value → m k = some value) ∧
    (∀ ( keyPrefix : String) (r1 r2 : NodeInfo),
      keyPrefix ++ r1.Path = keyPrefix ++ r2.Path ↔ r1.Path = r2.Path) := by
  refine ⟨fun r1 r2 => arguments_ne_let _ _, ?_,
    fun keyPrefix r1 r2 => ⟨append_left_cancel _ _ _, fun h => by rw [h]⟩⟩
  obtain ⟨ka2, a2, kl, l, reducedLet, variableMap1, harg, -, hev, hm⟩ :=
    Parse_some t variablesNode m hparse
  rw [harguments] at harg
  cases harg
  obtain rfl : variableMap1 = parseArguments ArgumentsKey a emptyMap :=
    evaluateLetLoop_readsOnly t hreads _ _ _ _ _ hev
  intro k value hk
  have hkey : k ∈ keys (parseArguments ArgumentsKey a emptyMap) := by
    simp [keys, Set.mem_def, hk]
  unfold parseArguments at hkey
  rw [harvest_keys] at hkey
  rcases hkey with hkey | ⟨r, -, -, hkey⟩
  · simp [keys, emptyMap, Set.mem_def] at hkey
  · rw [hm, ← hk]
    refine harvest_other LetKey reducedLet _ _ k (fun r2 _ _ heq => ?_)
    rw [hkey] at heq
    exact arguments_ne_let _ _ heq.symm

/-- The sample seed: `arguments.env`, bound by phase 1, is in the map `Parse` returns. -/
theorem Parse_keeps_argument_bindings_witness :
    parseArguments LetKey Sample.seedReducedLet
      (parseArguments ArgumentsKey Sample.seedArguments emptyMap) "arguments.env" =
        some "prod" :=
  (Parse_keeps_argument_bindings Sample.transforms Sample_transforms_readsOnly Sample.seed
    (Sample.str "arguments")
    Sample.seedArguments
    (parseArguments LetKey Sample.seedReducedLet
      (parseArguments ArgumentsKey Sample.seedArguments emptyMap)) rfl rfl).2.1
    "arguments.env" "prod" (by decide)

end Variable

/-! ## Paths -/

namespace filepath

theorem IsAbs_ne_empty (path : String) (h : IsAbs path = true) : path ≠ "" := by
  rintro rfl
  simp [IsAbs] at h

theorem Clean_rooted (path : String) (h : IsAbs path = true) : IsAbs (Clean path) = true := by
  have hne : path ≠ "" := IsAbs_ne_empty path h
  have hhead : path.data.head? = some '/' := by simpa [IsAbs] using h
  simp [Clean, hne, hhead, IsAbs]

/-- Joining onto an absolute directory gives an absolute path. -/
theorem IsAbs_Join (baseAbsDir targetPath : String) (h : IsAbs baseAbsDir = true) :
    IsAbs (Join baseAbsDir targetPath) = true := by
  have hne : baseAbsDir ≠ "" := IsAbs_ne_empty baseAbsDir h
  have hhead : baseAbsDir.data.head? = some '/' := by simpa [IsAbs] using h
  have hdata : baseAbsDir.data ≠ [] := by
    intro hnil
    simp [hnil] at hhead
  simp only [Join, hne, ne_eq, not_false_eq_true, if_true]
  apply Clean_rooted
  simp only [IsAbs, String.data_append, decide_eq_true_eq]
  cases hd : baseAbsDir.data with
  | nil => exact absurd hd hdata
  | cons c rest =>
    rw [hd] at hhead
    simpa using hhead

/-- A base name is never empty. -/
theorem Base_ne_empty (path : String) : Base path ≠ "" := by
  unfold Base
  split
  · decide
  · split
    · decide
    · next hlast =>
      intro h
      have hdata := congrArg String.data h
      simp at hdata
      exact hlast hdata

end filepath

/-! ## Canonicalisation of a skeleton -/

namespace schema

theorem validateFiles_ok (files : List String) :
    validateFiles files = .ok () ↔ ∀ path ∈ files, path ≠ "" := by
  induction files with
  | nil => simp [validateFiles]
  | cons path rest ih =>
    by_cases hpath : path = ""
    · simp [validateFiles, hpath]
    · simp [validateFiles, hpath, ih]

theorem validateFiles_cases (files : List String) :
    validateFiles files = .ok () ∨ ∃ err, validateFiles files = .error err := by
  induction files with
  | nil => exact Or.inl rfl
  | cons path rest ih =>
    by_cases hpath : path = ""
    · exact Or.inr ⟨_, by simp only [validateFiles, hpath, if_true]; rfl⟩
    · simpa [validateFiles, hpath] using ih

theorem Arguments_validate_ok (self : Arguments) :
    self.validate = .ok () ↔
      self.VSCodeDevcontainer.ProjectName ≠ "" ∧ self.VSCodeDevcontainer.AttachService ≠ "" ∧
      self.DockerCompose.ProjectPrefix ≠ "" ∧ ∀ path ∈ self.DockerCompose.Files, path ≠ "" := by
  unfold Arguments.validate
  by_cases h1 : self.VSCodeDevcontainer.ProjectName = ""
  · simp [h1]
  · by_cases h2 : self.VSCodeDevcontainer.AttachService = ""
    · simp [h1, h2]
    · by_cases h3 : self.DockerCompose.ProjectPrefix = ""
      · simp [h1, h2, h3]
      · simp [h1, h2, h3, validateFiles_ok]

theorem appendResolved_eq (baseAbsDir : String) (files dockerComposeAbsPaths : List String) :
    appendResolved baseAbsDir files dockerComposeAbsPaths =
      dockerComposeAbsPaths ++ files.map (resolvePath baseAbsDir) := by
  induction files generalizing dockerComposeAbsPaths with
  | nil => simp [appendResolved]
  | cons path rest ih => simp [appendResolved, ih]

/-- What `Arguments.getCanonical` returns when it succeeds. -/
theorem Arguments_getCanonical_ok (self result : Arguments) (baseAbsDir : String) :
    self.getCanonical baseAbsDir = .ok result ↔
      filepath.IsAbs baseAbsDir = true ∧ self.validate = .ok () ∧
      result = { self with DockerCompose := { self.DockerCompose with
        Files := self.DockerCompose.Files.map (resolvePath baseAbsDir) } } := by
  unfold Arguments.getCanonical
  cases habs : filepath.IsAbs baseAbsDir
  · simp
  · cases hvalid : self.validate with
    | error err => simp
    | ok u =>
      simp only [Bool.not_true, Bool.false_eq_true, if_false, appendResolved_eq, List.nil_append,
        Except.ok.injEq, true_and]
      exact ⟨fun h => h.symm, fun h => h.symm⟩

theorem resolvePath_isAbs (baseAbsDir targetPath : String)
    (h : filepath.IsAbs baseAbsDir = true) :
    filepath.IsAbs (resolvePath baseAbsDir targetPath) = true := by
  unfold resolvePath
  cases habs : filepath.IsAbs targetPath
  · simpa using filepath.IsAbs_Join baseAbsDir targetPath h
  · simpa using habs

theorem resolvePath_of_isAbs (baseAbsDir targetPath : String)
    (h : filepath.IsAbs targetPath = true) : resolvePath baseAbsDir targetPath = targetPath := by
  simp [resolvePath, h]

/-- What `Collection.getCanonical` returns for an absolute base directory. -/
theorem Collection_getCanonical_eq (self : Collection) (baseAbsDir : String)
    (habs : filepath.IsAbs baseAbsDir = true) :
    self.getCanonical baseAbsDir =
      if self.Name = "" ∧ self.Path = "" then
        .error "[Error] neither 'name' nor 'path' is specified in 'collections.list'!"
      else
        .ok { Name := canonicalName self, Path := resolvePath baseAbsDir self.Path,
              User := self.User } := by
  unfold Collection.getCanonical Collection.validate canonicalName
  by_cases hname : self.Name = ""
  · by_cases hpath : self.Path = ""
    · simp [habs, hname, hpath]
    · simp [habs, hname, hpath]
  · by_cases hpath : self.Path = ""
    · simp [habs, hname, hpath]
    · simp [habs, hname, hpath]

theorem appendCanonical_ok (absPath : String) (habs : filepath.IsAbs absPath = true)
    (list canonicalList : List Collection)
    (hvalid : ∀ c ∈ list, c.Name ≠ "" ∨ c.Path ≠ "") :
    appendCanonical absPath list canonicalList =
      .ok (canonicalList ++ list.map (fun c =>
        { Name := canonicalName c, Path := resolvePath absPath c.Path, User := c.User })) := by
  induction list generalizing canonicalList with
  | nil => simp [appendCanonical]
  | cons c rest ih =>
    have hc : ¬ (c.Name = "" ∧ c.Path = "") := by
      rcases hvalid c (List.mem_cons_self _ _) with h | h
      · exact fun hboth => h hboth.1
      · exact fun hboth => h hboth.2
    simp only [appendCanonical, Collection_getCanonical_eq c absPath habs, hc, if_false]
    rw [ih _ (fun c2 hc2 => hvalid c2 (List.mem_cons_of_mem _ hc2))]
    simp

theorem appendCanonical_err (absPath : String) (habs : filepath.IsAbs absPath = true)
    (list canonicalList : List Collection)
    (hinvalid : ∃ c ∈ list, c.Name = "" ∧ c.Path = "") :
    ∃ err, appendCanonical absPath list canonicalList = .error err := by
  induction list generalizing canonicalList with
  | nil => simp at hinvalid
  | cons c rest ih =>
    by_cases hc : c.Name = "" ∧ c.Path = ""
    · exact ⟨_, by
        simp only [appendCanonical, Collection_getCanonical_eq c absPath habs, hc, and_self,
          if_true]
        rfl⟩
    · obtain ⟨c2, hc2, hboth⟩ := hinvalid
      rcases List.mem_cons.1 hc2 with rfl | hc2
      · exact absurd hboth hc
      · simp only [appendCanonical, Collection_getCanonical_eq c absPath habs, hc, if_false]
        exact ih _ ⟨c2, hc2, hboth⟩

/-- What `Collections.getCanonical` returns when it succeeds. -/
theorem Collections_getCanonical_ok (self result : Collections) (baseAbsDir : String)
    (habs : filepath.IsAbs baseAbsDir = true) :
    self.getCanonical baseAbsDir = .ok result ↔
      self.Path ≠ "" ∧ (∀ c ∈ self.List, c.Name ≠ "" ∨ c.Path ≠ "") ∧
      result = { Path := resolvePath baseAbsDir self.Path,
                 List := self.List.map (fun c =>
                   { Name := canonicalName c,
                     Path := resolvePath (resolvePath baseAbsDir self.Path) c.Path,
                     User := c.User }) } := by
  have habs2 := resolvePath_isAbs baseAbsDir self.Path habs
  unfold Collections.getCanonical Collections.validate
  by_cases hpath : self.Path = ""
  · simp [habs, hpath]
  · by_cases hvalid : ∀ c ∈ self.List, c.Name ≠ "" ∨ c.Path ≠ ""
    · simp only [habs, Bool.not_true, Bool.false_eq_true, if_false, hpath,
        appendCanonical_ok _ habs2 self.List [] hvalid, List.nil_append, Except.ok.injEq,
        ne_eq, not_false_eq_true, true_and]
      constructor
      · intro h
        exact ⟨hvalid, h.symm⟩
      · intro h
        exact h.2.symm
    · have hinvalid : ∃ c ∈ self.List, c.Name = "" ∧ c.Path = "" := by
        by_contra hno
        apply hvalid
        intro c hc
        by_contra hcc
        apply hno
        refine ⟨c, hc, ?_⟩
        constructor
        · by_contra hn
          exact hcc (Or.inl hn)
        · by_contra hp
          exact hcc (Or.inr hp)
      obtain ⟨err, herr⟩ := appendCanonical_err _ habs2 self.List [] hinvalid
      simp only [habs, Bool.not_true, Bool.false_eq_true, if_false, hpath, herr]
      simp [hvalid]

theorem serviceNameSet_eq (list : List Collection) :
    serviceNameSet list = list.map (fun c => c.Name) := by
  induction list with
  | nil => rfl
  | cons c rest ih => simp [serviceNameSet, ih]

theorem attachedServiceExists_iff (self : Skeleton) :
    self.attachedServiceExists = true ↔
      ∃ c ∈ self.Collections.List, self.Arguments.VSCodeDevcontainer.AttachService = c.Name := by
  simp only [Skeleton.attachedServiceExists, serviceNameSet_eq, List.contains_iff_exists_mem_beq,
    List.mem_map, beq_iff_eq]
  constructor
  · rintro ⟨name, ⟨c, hc, rfl⟩, h⟩
    exact ⟨c, hc, h⟩
  · rintro ⟨c, hc, h⟩
    exact ⟨c.Name, ⟨c, hc, rfl⟩, h⟩

/-- What `Skeleton.getCanonical` returns when it succeeds. -/
theorem Skeleton_getCanonical_ok (self result : Skeleton) (baseAbsDir : String) :
    self.getCanonical baseAbsDir = .ok result ↔
      filepath.IsAbs baseAbsDir = true ∧
      ∃ arguments collections,
        self.Arguments.getCanonical baseAbsDir = .ok arguments ∧
        self.Collections.getCanonical baseAbsDir = .ok collections ∧
        result = { Version := self.Version, Arguments := arguments, Collections := collections } ∧
        result.attachedServiceExists = true := by
  unfold Skeleton.getCanonical Skeleton.validate
  cases habs : filepath.IsAbs baseAbsDir
  · simp
  · cases harg : self.Arguments.getCanonical baseAbsDir with
    | error err => simp
    | ok arguments =>
      cases hcol : self.Collections.getCanonical baseAbsDir with
      | error err => simp
      | ok collections =>
        simp only [Bool.not_true, Bool.false_eq_true, if_false, true_and, Except.ok.injEq,
          exists_and_left, exists_eq_left']
        cases hattach : Skeleton.attachedServiceExists
            { Version := self.Version, Arguments := arguments, Collections := collections }
        · simp only [Bool.not_false, if_true]
          constructor
          · intro h
            cases h
          · rintro ⟨rfl, h⟩
            rw [hattach] at h
            cases h
        · simp only [Bool.not_true, Bool.false_eq_true, if_false, Except.ok.injEq]
          constructor
          · rintro rfl
            exact ⟨rfl, hattach⟩
          · rintro ⟨h, -⟩
            exact h.symm

end schema

namespace schema

/-- C14: for an absolute base directory `Skeleton.getCanonical` succeeds exactly when
`project_name`, `attach_service` and `project_prefix` are non-empty, every entry of
`docker_compose.files` is non-empty, `collections.path` is non-empty, every collection has
a name or a path, and `attach_service` is the canonical name of some collection; for a base
directory that is not absolute it fails. -/
theorem Skeleton_getCanonical_succeeds_iff (self : Skeleton) (baseAbsDir : String) :
    (filepath.IsAbs baseAbsDir = true →
      ((∃ result, self.getCanonical baseAbsDir = .ok result) ↔
        self.Arguments.VSCodeDevcontainer.ProjectName ≠ "" ∧
        self.Arguments.VSCodeDevcontainer.AttachService ≠ "" ∧
        self.Arguments.DockerCompose.ProjectPrefix ≠ "" ∧
        (∀ path ∈ self.Arguments.DockerCompose.Files, path ≠ "") ∧
        self.Collections.Path ≠ "" ∧
        (∀ c ∈ self.Collections.List, c.Name ≠ "" ∨ c.Path ≠ "") ∧
        ∃ c ∈ self.Collections.List,
          self.Arguments.VSCodeDevcontainer.AttachService = canonicalName c)) ∧
    (filepath.IsAbs baseAbsDir = false →
      self.getCanonical baseAbsDir = .error (notAbsolute baseAbsDir)) := by
  constructor
  · intro habs
    constructor
    · rintro ⟨result, hresult⟩
      obtain ⟨-, arguments, collections, harg, hcol, rfl, hattach⟩ :=
        (Skeleton_getCanonical_ok self result baseAbsDir).1 hresult
      obtain ⟨-, hvalid, rfl⟩ := (Arguments_getCanonical_ok self.Arguments arguments baseAbsDir).1 harg
      obtain ⟨hpath, hlist, rfl⟩ :=
        (Collections_getCanonical_ok self.Collections collections baseAbsDir habs).1 hcol
      obtain ⟨h1, h2, h3, h4⟩ := (Arguments_validate_ok self.Arguments).1 hvalid
      refine ⟨h1, h2, h3, h4, hpath, hlist, ?_⟩
      obtain ⟨c, hc, hname⟩ := (attachedServiceExists_iff _).1 hattach
      simp only [List.mem_map] at hc
      obtain ⟨c0, hc0, rfl⟩ := hc
      exact ⟨c0, hc0, hname⟩
    · rintro ⟨h1, h2, h3, h4, hpath, hlist, c0, hc0, hname⟩
      refine ⟨_, (Skeleton_getCanonical_ok self _ baseAbsDir).2 ⟨habs, _, _,
        (Arguments_getCanonical_ok self.Arguments _ baseAbsDir).2
          ⟨habs, (Arguments_validate_ok self.Arguments).2 ⟨h1, h2, h3, h4⟩, rfl⟩,
        (Collections_getCanonical_ok self.Collections _ baseAbsDir habs).2 ⟨hpath, hlist, rfl⟩,
        rfl, ?_⟩⟩
      refine (attachedServiceExists_iff _).2 ⟨_, List.mem_map.2 ⟨c0, hc0, rfl⟩, hname⟩
  · intro habs
    simp [Skeleton.getCanonical, habs]

/-- C15 at `{name: web, path: ""}` and the base directory `/proj/collections`: the canonical
path is the base directory itself, not `/proj/collections/web`, though `Join(".", name)` is
`web`; so it is for every collection given by its name only: its canonical path is the
base directory joined with the empty path, whatever the name. At
`{name: "", path: services/db/}` the canonical name is the base name `db`. -/
theorem Collection_getCanonical_name_only :
    Sample.nameOnly.getCanonical "/proj/collections" =
      .ok { Name := "web", Path := "/proj/collections", User := "node" } ∧
    filepath.Join "." Sample.nameOnly.Name = "web" ∧
    resolvePath "/proj/collections" (filepath.Join "." Sample.nameOnly.Name) =
      "/proj/collections/web" ∧
    (∀ (name user baseAbsDir : String), name ≠ "" → filepath.IsAbs baseAbsDir = true →
      Collection.getCanonical { Name := name, Path := "", User := user } baseAbsDir =
        .ok { Name := name, Path := filepath.Join baseAbsDir "", User := user }) ∧
    Sample.pathOnly.getCanonical "/proj/collections" =
      .ok { Name := "db", Path := "/proj/collections/services/db", User := "" } := by
  refine ⟨rfl, by decide, by decide, ?_, rfl⟩
  intro name user baseAbsDir hname habs
  rw [Collection_getCanonical_eq _ baseAbsDir habs]
  have hrel : filepath.IsAbs "" = false := by decide
  simp [hname, canonicalName, resolvePath, hrel]

/-- C17: when `Arguments.getCanonical` succeeds the base directory is absolute, the result's
`docker_compose.files` is the input's list entry by entry, an absolute entry kept and any
other joined onto the base directory, so that every entry is absolute, and every other field
is the input's. -/
theorem Arguments_getCanonical_frame (self result : Arguments) (baseAbsDir : String)
    (h : self.getCanonical baseAbsDir = .ok result) :
    filepath.IsAbs baseAbsDir = true ∧
    result.DockerCompose.Files.length = self.DockerCompose.Files.length ∧
    (∀ (i : Nat) (path : String), self.DockerCompose.Files[i]? = some path →
      result.DockerCompose.Files[i]? =
        some (if filepath.IsAbs path then path else filepath.Join baseAbsDir path)) ∧
    (∀ path ∈ result.DockerCompose.Files, filepath.IsAbs path = true) ∧
    result.VSCodeDevcontainer.ProjectName = self.VSCodeDevcontainer.ProjectName ∧
    result.VSCodeDevcontainer.AttachService = self.VSCodeDevcontainer.AttachService ∧
    result.DockerCompose.ProjectPrefix = self.DockerCompose.ProjectPrefix ∧
    result.DockerCompose.VSCodeExtensionVolumes.Normal =
      self.DockerCompose.VSCodeExtensionVolumes.Normal ∧
    result.DockerCompose.VSCodeExtensionVolumes.Insider =
      self.DockerCompose.VSCodeExtensionVolumes.Insider := by
  obtain ⟨habs, -, rfl⟩ := (Arguments_getCanonical_ok self result baseAbsDir).1 h
  refine ⟨habs, by simp, ?_, ?_, rfl, rfl, rfl, rfl, rfl⟩
  · intro i path hpath
    simp [hpath, resolvePath]
  · intro path hpath
    simp only [List.mem_map] at hpath
    obtain ⟨p, -, rfl⟩ := hpath
    exact resolvePath_isAbs baseAbsDir p habs

/-- The sample arguments under `/home/p`: the relative file is joined, the absolute kept. -/
theorem Arguments_getCanonical_frame_witness :
    Sample.arguments.getCanonical "/home/p" = .ok Sample.canonicalSkeleton.Arguments ∧
    Sample.canonicalSkeleton.Arguments.DockerCompose.Files =
      ["/home/p/docker-compose.yml", "/etc/extra.yml"] ∧
    ∀ path ∈ Sample.canonicalSkeleton.Arguments.DockerCompose.Files,
      filepath.IsAbs path = true :=
  ⟨rfl, rfl, (Arguments_getCanonical_frame Sample.arguments Sample.canonicalSkeleton.Arguments
    "/home/p" rfl).2.2.2.1⟩

/-- C16: canonicalisation is idempotent: a skeleton returned by `getCanonical` is returned
unchanged by `getCanonical` for any absolute base directory. -/
theorem Skeleton_getCanonical_idempotent (self canonical : Skeleton)
    (baseAbsDir otherAbsDir : String)
    (hbase : filepath.IsAbs baseAbsDir = true) (hother : filepath.IsAbs otherAbsDir = true)
    (h : self.getCanonical baseAbsDir = .ok canonical) :
    canonical.getCanonical otherAbsDir = .ok canonical := by
  obtain ⟨-, arguments, collections, harg, hcol, rfl, hattach⟩ :=
    (Skeleton_getCanonical_ok self canonical baseAbsDir).1 h
  obtain ⟨-, hvalid, rfl⟩ := (Arguments_getCanonical_ok self.Arguments arguments baseAbsDir).1 harg
  obtain ⟨hpath, hlist, rfl⟩ :=
    (Collections_getCanonical_ok self.Collections collections baseAbsDir hbase).1 hcol
  obtain ⟨h1, h2, h3, h4⟩ := (Arguments_validate_ok self.Arguments).1 hvalid
  have habsPath := resolvePath_isAbs baseAbsDir self.Collections.Path hbase
  refine (Skeleton_getCanonical_ok _ _ otherAbsDir).2 ⟨hother, _, _,
    (Arguments_getCanonical_ok _ _ otherAbsDir).2 ⟨hother, ?_, ?_⟩,
    (Collections_getCanonical_ok _ _ otherAbsDir hother).2 ⟨?_, ?_, ?_⟩, rfl, hattach⟩
  · refine (Arguments_validate_ok _).2 ⟨h1, h2, h3, ?_⟩
    intro path hmem
    simp only [List.mem_map] at hmem
    obtain ⟨p, -, rfl⟩ := hmem
    exact filepath.IsAbs_ne_empty _ (resolvePath_isAbs baseAbsDir p hbase)
  · have hfiles : List.map (resolvePath otherAbsDir)
        (List.map (resolvePath baseAbsDir) self.Arguments.DockerCompose.Files) =
        List.map (resolvePath baseAbsDir) self.Arguments.DockerCompose.Files := by
      rw [List.map_map]
      apply List.map_congr_left
      intro p _
      exact resolvePath_of_isAbs _ _ (resolvePath_isAbs baseAbsDir p hbase)
    simp only [hfiles]
  · exact filepath.IsAbs_ne_empty _ habsPath
  · intro c hc
    simp only [List.mem_map] at hc
    obtain ⟨c0, hc0, rfl⟩ := hc
    right
    exact filepath.IsAbs_ne_empty _ (resolvePath_isAbs _ c0.Path habsPath)
  · have hsame : resolvePath otherAbsDir (resolvePath baseAbsDir self.Collections.Path) =
        resolvePath baseAbsDir self.Collections.Path := resolvePath_of_isAbs _ _ habsPath
    simp only [hsame, List.map_map]
    congr 1
    apply List.map_congr_left
    intro c0 hc0
    have hname : canonicalName c0 ≠ "" := by
      unfold canonicalName
      split
      · exact filepath.Base_ne_empty _
      · assumption
    simp only [Function.comp, resolvePath_of_isAbs _ _ (resolvePath_isAbs _ c0.Path habsPath)]
    have hkeep : canonicalName
        { Name := canonicalName c0,
          Path := resolvePath (resolvePath baseAbsDir self.Collections.Path) c0.Path,
          User := c0.User } = canonicalName c0 := by
      show (if canonicalName c0 = "" then filepath.Base _ else canonicalName c0) = canonicalName c0
      rw [if_neg hname]
    rw [hkeep]

/-- The sample skeleton: canonical for `/home/p`, and unchanged by a second pass under
`/elsewhere`. -/
theorem Skeleton_getCanonical_idempotent_witness :
    Sample.skeleton.getCanonical "/home/p" = .ok Sample.canonicalSkeleton ∧
    Sample.canonicalSkeleton.getCanonical "/elsewhere" = .ok Sample.canonicalSkeleton :=
  ⟨rfl, Skeleton_getCanonical_idempotent Sample.skeleton Sample.canonicalSkeleton "/home/p"
    "/elsewhere" (by decide) (by decide) rfl⟩

end schema

/-! ## Section lookup by position -/

namespace Variable

open traverse evaluator

/-- The pair the loop returns sits at the first even position whose key node has the value. -/
theorem findChildLoop_ok_index (parentNode : yaml.Node) (value : String) :
    ∀ (content : List yaml.Node) (k v : yaml.Node),
      findChildLoop parentNode value content = .ok (k, v) →
      ∃ i, i % 2 = 0 ∧ content[i]? = some k ∧ content[i + 1]? = some v ∧ k.Value = value ∧
        ∀ j, j < i → j % 2 = 0 → ∀ kj, content[j]? = some kj → kj.Value ≠ value
  | [], k, v, h => by simp [findChildLoop] at h
  | [_], k, v, h => by simp [findChildLoop] at h
  | key :: val :: rest, k, v, h => by
    by_cases hkey : key.Value = value
    · simp only [findChildLoop, hkey, beq_self_eq_true, if_true, Result.ok.injEq,
        Prod.mk.injEq] at h
      obtain ⟨rfl, rfl⟩ := h
      exact ⟨0, rfl, by simp, by simp, hkey, fun j hj => absurd hj (Nat.not_lt_zero j)⟩
    · have hrest : findChildLoop parentNode value rest = .ok (k, v) := by
        simpa [findChildLoop, hkey] using h
      obtain ⟨i, heven, hk, hv, hvalue, hfirst⟩ :=
        findChildLoop_ok_index parentNode value rest k v hrest
      refine ⟨i + 2, by omega, by simpa using hk, by simpa using hv, hvalue, ?_⟩
      intro j hj hjeven kj hkj
      match j, hj, hjeven, hkj with
      | 0, _, _, hkj =>
        simp only [List.getElem?_cons_zero, Option.some.injEq] at hkj
        rw [← hkj]
        exact hkey
      | 1, _, hjeven, _ => omega
      | j + 2, hj, hjeven, hkj =>
        exact hfirst j (by omega) (by omega) kj (by simpa using hkj)

/-- A key node at an even position of a content of even length heads an entry. -/
theorem entries_of_even_index :
    ∀ (content : List yaml.Node) (i : Nat) (k : yaml.Node),
      content.length % 2 = 0 → i % 2 = 0 → content[i]? = some k →
      ∃ v, (k, v) ∈ entries content
  | [], i, k, _, _, h => by simp at h
  | [_], i, k, hlen, _, _ => by simp at hlen
  | key :: val :: rest, i, k, hlen, heven, h => by
    match i, heven, h with
    | 0, _, h =>
      simp only [List.getElem?_cons_zero, Option.some.injEq] at h
      exact ⟨val, by simp [entries, h]⟩
    | 1, heven, _ => omega
    | i + 2, heven, h =>
      have hlen2 : rest.length % 2 = 0 := by
        simp only [List.length_cons] at hlen
        omega
      obtain ⟨v, hv⟩ := entries_of_even_index rest i k hlen2 (by omega) (by simpa using h)
      exact ⟨v, by simp [entries, hv]⟩

/-- C18: on a node tagged `!!map` whose content has even length the lookup never reads
past the content; it succeeds exactly when a key node at an even position has the value,
and then returns the key node at the smallest such position together with the node after
it. On a node with any other tag it fails, whatever the content. -/
theorem findChildNodeWithKeyFromMap_even (parentNode : yaml.Node) (value : String) :
    (parentNode.Tag = "!!map" → parentNode.Content.length % 2 = 0 →
      findChildNodeWithKeyFromMap parentNode value ≠ .panic ∧
      ((∃ kv, findChildNodeWithKeyFromMap parentNode value = .ok kv) ↔
        ∃ i k, i % 2 = 0 ∧ parentNode.Content[i]? = some k ∧ k.Value = value) ∧
      (∀ k v, findChildNodeWithKeyFromMap parentNode value = .ok (k, v) →
        ∃ i, i % 2 = 0 ∧ parentNode.Content[i]? = some k ∧
          parentNode.Content[i + 1]? = some v ∧ k.Value = value ∧
          ∀ j, j < i → j % 2 = 0 → ∀ kj, parentNode.Content[j]? = some kj →
            kj.Value ≠ value) ∧
      ((¬ ∃ i k, i % 2 = 0 ∧ parentNode.Content[i]? = some k ∧ k.Value = value) →
        findChildNodeWithKeyFromMap parentNode value = .err (.notFound value parentNode))) ∧
    (parentNode.Tag ≠ "!!map" →
      findChildNodeWithKeyFromMap parentNode value = .err (.notMapNode parentNode)) := by
  constructor
  · intro htag heven
    have hunfold : findChildNodeWithKeyFromMap parentNode value =
        findChildLoop parentNode value parentNode.Content := by
      simp [findChildNodeWithKeyFromMap, htag]
    have hindex : ∀ k v, findChildNodeWithKeyFromMap parentNode value = .ok (k, v) →
        ∃ i, i % 2 = 0 ∧ parentNode.Content[i]? = some k ∧
          parentNode.Content[i + 1]? = some v ∧ k.Value = value ∧
          ∀ j, j < i → j % 2 = 0 → ∀ kj, parentNode.Content[j]? = some kj →
            kj.Value ≠ value := by
      intro k v h
      rw [hunfold] at h
      exact findChildLoop_ok_index parentNode value parentNode.Content k v h
    have hfound : (∃ i k, i % 2 = 0 ∧ parentNode.Content[i]? = some k ∧ k.Value = value) →
        ∃ kv, findChildNodeWithKeyFromMap parentNode value = .ok kv := by
      rintro ⟨i, k, hi, hk, hvalue⟩
      obtain ⟨v, hv⟩ := entries_of_even_index parentNode.Content i k heven hi hk
      obtain ⟨kv, -, -, hok⟩ := findChildLoop_present parentNode value parentNode.Content
        ⟨(k, v), hv, hvalue⟩
      exact ⟨kv, by rw [hunfold, hok]⟩
    have hsection : HasSection parentNode value →
        ∃ i k, i % 2 = 0 ∧ parentNode.Content[i]? = some k ∧ k.Value = value := by
      intro hsec
      obtain ⟨kv, -, -, hok⟩ := findChildLoop_present parentNode value parentNode.Content hsec.2
      obtain ⟨i, hi, hk, -, hvalue, -⟩ :=
        findChildLoop_ok_index parentNode value parentNode.Content kv.1 kv.2 hok
      exact ⟨i, kv.1, hi, hk, hvalue⟩
    refine ⟨?_, ⟨?_, hfound⟩, hindex, ?_⟩
    · by_cases hsec : HasSection parentNode value
      · obtain ⟨kv, hok⟩ := hfound (hsection hsec)
        simp [hok]
      · rw [findChild_of_not_hasSection _ _ hsec]
        simp [htag, heven]
    · rintro ⟨⟨k, v⟩, hok⟩
      obtain ⟨i, hi, hk, -, hvalue, -⟩ := hindex k v hok
      exact ⟨i, k, hi, hk, hvalue⟩
    · intro hnone
      have hsec : ¬ HasSection parentNode value := fun hsec => hnone (hsection hsec)
      rw [findChild_of_not_hasSection _ _ hsec]
      simp [htag, heven]
  · intro htag
    simp [findChildNodeWithKeyFromMap, htag]

end Variable

/-! ## Let evaluation, application by application -/

namespace Variable

open traverse evaluator

theorem applyInOrder_append (t : Transforms) (before after : List (NodeInfo × Transform))
    (root : yaml.Node) (variableMap : VariableMap) :
    applyInOrder t (before ++ after) root variableMap =
      match applyInOrder t before root variableMap with
      | .ok (root1, variableMap1) => applyInOrder t after root1 variableMap1
      | .err e => .err e
      | .panic => .panic := by
  induction before generalizing root variableMap with
  | nil => rfl
  | cons a rest ih =>
    obtain ⟨nodeInfo, transform⟩ := a
    simp only [List.cons_append, applyInOrder]
    cases applyTransform t nodeInfo transform root variableMap with
    | ok state => exact ih state.1 state.2
    | err e => rfl
    | panic => rfl

/-- The body of the loop runs the four transforms on the node of the record, in the fixed
order, each on the tree the one before left, and stops at the first that fails. -/
theorem evaluateRecord_eq (t : Transforms) (root : yaml.Node) (variableMap : VariableMap)
    (nodeInfo : NodeInfo) :
    evaluateRecord t root variableMap nodeInfo =
      applyInOrder t (transformOrder.map (fun transform => (nodeInfo, transform)))
        root variableMap := by
  simp only [evaluateRecord, applyVariableAt, applyAt, transformOrder, List.map, applyInOrder,
    applyTransform]
  cases t.EvaluateVariable (deref nodeInfo.Node root) variableMap with
  | panic => rfl
  | err e => rfl
  | ok state1 =>
    obtain ⟨reduced1, variableMap1⟩ := state1
    simp only
    cases t.EvaluateSubstitution (deref nodeInfo.Node (assign nodeInfo.Node root reduced1)) with
    | panic => rfl
    | err e => rfl
    | ok reduced2 =>
      simp only [replaceNode]
      cases t.EvaluateEquals (deref nodeInfo.Node
          (assign nodeInfo.Node (assign nodeInfo.Node root reduced1) reduced2)) with
      | panic => rfl
      | err e => rfl
      | ok reduced3 =>
        simp only [replaceNode]
        cases t.EvaluateIf (deref nodeInfo.Node (assign nodeInfo.Node
            (assign nodeInfo.Node (assign nodeInfo.Node root reduced1) reduced2) reduced3)) with
        | panic => rfl
        | err e => rfl
        | ok reduced4 => rfl

/-- The loop of `evaluateLet` makes the applications of its records in order. -/
theorem evaluateLetLoop_eq (t : Transforms) (records : List NodeInfo) (root : yaml.Node)
    (variableMap : VariableMap) :
    evaluateLetLoop t records root variableMap =
      applyInOrder t (applications records) root variableMap := by
  induction records generalizing root variableMap with
  | nil => rfl
  | cons nodeInfo rest ih =>
    simp only [evaluateLetLoop, applications, applyInOrder_append, evaluateRecord_eq]
    cases applyInOrder t (transformOrder.map (fun transform => (nodeInfo, transform)))
        root variableMap with
    | ok state => exact ih state.1 state.2
    | err e => rfl
    | panic => rfl

/-- A run succeeds exactly when every application it reaches succeeds. -/
theorem applyInOrder_ok_iff (t : Transforms) (list : List (NodeInfo × Transform))
    (root : yaml.Node) (variableMap : VariableMap) :
    (∃ state, applyInOrder t list root variableMap = .ok state) ↔
      ∀ before a after root1 variableMap1, list = before ++ a :: after →
        applyInOrder t before root variableMap = .ok (root1, variableMap1) →
        ∃ state, applyTransform t a.1 a.2 root1 variableMap1 = .ok state := by
  induction list generalizing root variableMap with
  | nil =>
    constructor
    · intro _ before a after root1 variableMap1 hlist
      simp at hlist
    · intro _
      exact ⟨_, rfl⟩
  | cons a0 rest ih =>
    obtain ⟨nodeInfo, transform⟩ := a0
    constructor
    · rintro ⟨state, hstate⟩ before a after root1 variableMap1 hlist hbefore
      simp only [applyInOrder] at hstate
      cases hfirst : applyTransform t nodeInfo transform root variableMap with
      | panic => simp [hfirst] at hstate
      | err e => simp [hfirst] at hstate
      | ok state0 =>
        obtain ⟨root0, variableMap0⟩ := state0
        simp only [hfirst] at hstate
        cases before with
        | nil =>
          simp only [List.nil_append, List.cons.injEq] at hlist
          simp only [applyInOrder, Result.ok.injEq, Prod.mk.injEq] at hbefore
          obtain ⟨rfl, rfl⟩ := hbefore
          rw [← hlist.1]
          exact ⟨_, hfirst⟩
        | cons b before1 =>
          simp only [List.cons_append, List.cons.injEq] at hlist
          obtain ⟨rfl, hrest⟩ := hlist
          simp only [applyInOrder, hfirst] at hbefore
          exact (ih root0 variableMap0).1 ⟨state, hstate⟩ before1 a after root1 variableMap1
            hrest hbefore
    · intro hall
      obtain ⟨state0, hfirst⟩ := hall [] (nodeInfo, transform) rest root variableMap rfl rfl
      obtain ⟨root0, variableMap0⟩ := state0
      simp only at hfirst
      simp only [applyInOrder, hfirst]
      apply (ih root0 variableMap0).2
      intro before a after root1 variableMap1 hrest hbefore
      exact hall ((nodeInfo, transform) :: before) a after root1 variableMap1
        (by simp [hrest]) (by simp [applyInOrder, hfirst, hbefore])

/-- C12: `evaluateLet` runs the transforms on the nodes of the records of the post-order
traversal in emission order, for each record Variable, Substitution, Equals, If, each on the
node as the one before left it; the first transform that fails ends the pass with its error
whatever the later ones would do, and the pass succeeds exactly when every transform on
every record succeeds. -/
theorem evaluateLet_applies_in_order (t : Transforms) (let_ : yaml.Node)
    (variableMap : VariableMap) :
    evaluateLet t let_ variableMap =
      applyInOrder t (applications (Traverse let_ .PostOrder)) let_ variableMap ∧
    (∀ before a after root1 variableMap1 e,
      applications (Traverse let_ .PostOrder) = before ++ a :: after →
      applyInOrder t before let_ variableMap = .ok (root1, variableMap1) →
      applyTransform t a.1 a.2 root1 variableMap1 = .err e →
      evaluateLet t let_ variableMap = .err e) ∧
    ((∃ state, evaluateLet t let_ variableMap = .ok state) ↔
      ∀ before a after root1 variableMap1,
        applications (Traverse let_ .PostOrder) = before ++ a :: after →
        applyInOrder t before let_ variableMap = .ok (root1, variableMap1) →
        ∃ state, applyTransform t a.1 a.2 root1 variableMap1 = .ok state) := by
  have heq : evaluateLet t let_ variableMap =
      applyInOrder t (applications (Traverse let_ .PostOrder)) let_ variableMap :=
    evaluateLetLoop_eq t _ _ _
  refine ⟨heq, ?_, ?_⟩
  · intro before a after root1 variableMap1 e hlist hbefore hfail
    obtain ⟨nodeInfo, transform⟩ := a
    rw [heq, hlist, applyInOrder_append, hbefore]
    simp only [applyInOrder]
    simp only at hfail
    rw [hfail]
  · rw [heq]
    exact applyInOrder_ok_iff t _ _ _

/-- Two runs with the marking transforms. On `{k: a, l: [b]}` every record, the sequence
and the root included, carries the four marks in the order `v`, `s`, `e`, `i`. On
`!Fail {k: !Fail c, l: !Fail d}` the pass ends at the first record in post-order, `k`,
with the error of Equals on the value `cvs`: Variable and Substitution had been applied to
it, If was not, and neither `l` nor the root was reached. -/
theorem evaluateLet_applies_in_order_witness :
    evaluateLet Sample.marking Sample.marked emptyMap = .ok (Sample.markedReduced, emptyMap) ∧
    evaluateLet Sample.marking Sample.failingTree emptyMap = .err (.transform "cvs") :=
  ⟨(evaluateLet_applies_in_order Sample.marking Sample.marked emptyMap).1.trans rfl,
    (evaluateLet_applies_in_order Sample.marking Sample.failingTree emptyMap).2.1
      [(⟨".k", [1], true⟩, .Variable), (⟨".k", [1], true⟩, .Substitution)]
      (⟨".k", [1], true⟩, .Equals)
      [(⟨".k", [1], true⟩, .If),
        (⟨".l", [3], true⟩, .Variable), (⟨".l", [3], true⟩, .Substitution),
        (⟨".l", [3], true⟩, .Equals), (⟨".l", [3], true⟩, .If),
        (⟨"", [], false⟩, .Variable), (⟨"", [], false⟩, .Substitution),
        (⟨"", [], false⟩, .Equals), (⟨"", [], false⟩, .If)]
      (.mk yaml.MappingNode "!Fail" "p"
        [Sample.str "k", Sample.failing "cvs", Sample.str "l", Sample.failing "d"])
      emptyMap (.transform "cvs") rfl rfl rfl⟩

end Variable

/-! ## The bindings during let evaluation -/

namespace Variable

open traverse evaluator

theorem reduction_replaceNode (nodeInfo : NodeInfo) (root : yaml.Node) (m1 m2 : VariableMap)
    (result : Result yaml.Node) :
    reduction (replaceNode nodeInfo root m1 result) =
      reduction (replaceNode nodeInfo root m2 result) := by
  cases result <;> rfl

/-- Transforms that only read the map return, as `evaluateLet` sees them, the map they were
handed. -/
theorem SpecTransforms_readsOnly (s : SpecTransforms) : s.toMemory.toTransforms.ReadsOnly := by
  intro n variableMap reduced variableMap1 h
  simp only [MemoryTransforms.toTransforms, SpecTransforms.toMemory] at h
  cases hv : s.EvaluateVariable n variableMap with
  | ok reduced1 =>
    simp only [hv, Result.ok.injEq, Prod.mk.injEq] at h
    exact h.2.symm
  | err e => simp [hv] at h
  | panic => simp [hv] at h

/-- An application leaves the bindings as they are when the Variable transform does. -/
theorem applyTransform_readsOnly (t : Transforms) (hreads : t.ReadsOnly) (nodeInfo : NodeInfo)
    (transform : Transform) (root : yaml.Node) (variableMap : VariableMap) (root1 : yaml.Node)
    (variableMap1 : VariableMap)
    (h : applyTransform t nodeInfo transform root variableMap = .ok (root1, variableMap1)) :
    variableMap1 = variableMap := by
  have hkeep : ∀ result : Result yaml.Node,
      replaceNode nodeInfo root variableMap result = .ok (root1, variableMap1) →
      variableMap1 = variableMap := by
    intro result hresult
    cases result with
    | ok root2 =>
      simp only [replaceNode, Result.ok.injEq, Prod.mk.injEq] at hresult
      exact hresult.2.symm
    | err e => simp [replaceNode] at hresult
    | panic => simp [replaceNode] at hresult
  cases transform with
  | Variable =>
    simp only [applyTransform] at h
    cases hv : t.EvaluateVariable (deref nodeInfo.Node root) variableMap with
    | panic => simp [hv] at h
    | err e => simp [hv] at h
    | ok reduced =>
      obtain ⟨n, variableMap2⟩ := reduced
      simp only [hv, Result.ok.injEq, Prod.mk.injEq] at h
      rw [← h.2]
      exact hreads _ _ _ _ hv
  | Substitution => exact hkeep _ h
  | Equals => exact hkeep _ h
  | If => exact hkeep _ h

theorem applyInOrder_readsOnly (t : Transforms) (hreads : t.ReadsOnly)
    (list : List (NodeInfo × Transform)) (root : yaml.Node) (variableMap : VariableMap)
    (root1 : yaml.Node) (variableMap1 : VariableMap)
    (h : applyInOrder t list root variableMap = .ok (root1, variableMap1)) :
    variableMap1 = variableMap := by
  induction list generalizing root variableMap with
  | nil =>
    simp only [applyInOrder, Result.ok.injEq, Prod.mk.injEq] at h
    exact h.2.symm
  | cons a rest ih =>
    obtain ⟨nodeInfo, transform⟩ := a
    simp only [applyInOrder] at h
    cases hfirst : applyTransform t nodeInfo transform root variableMap with
    | panic => simp [hfirst] at h
    | err e => simp [hfirst] at h
    | ok state =>
      obtain ⟨root2, variableMap2⟩ := state
      simp only [hfirst] at h
      rw [ih root2 variableMap2 h]
      exact applyTransform_readsOnly t hreads nodeInfo transform root variableMap root2
        variableMap2 hfirst

/-- The map a record that succeeds hands on is the map its Variable call left. -/
theorem evaluateRecord_bindings (mt : MemoryTransforms) (root : yaml.Node)
    (variableMap : VariableMap) (nodeInfo : NodeInfo) (root1 : yaml.Node)
    (variableMap1 : VariableMap)
    (h : evaluateRecord mt.toTransforms root variableMap nodeInfo = .ok (root1, variableMap1)) :
    variableMap1 = (mt.EvaluateVariable (deref nodeInfo.Node root) variableMap).2 := by
  simp only [evaluateRecord, applyVariableAt, MemoryTransforms.toTransforms] at h
  rcases hv : mt.EvaluateVariable (deref nodeInfo.Node root) variableMap with ⟨result, memory⟩
  rw [hv] at h
  cases result with
  | panic => simp at h
  | err e => simp at h
  | ok reduced =>
    simp only at h
    cases h2 : applyAt (assign nodeInfo.Node root reduced) nodeInfo.Node
        mt.EvaluateSubstitution with
    | panic => simp [h2] at h
    | err e => simp [h2] at h
    | ok root2 =>
      simp only [h2] at h
      cases h3 : applyAt root2 nodeInfo.Node mt.EvaluateEquals with
      | panic => simp [h3] at h
      | err e => simp [h3] at h
      | ok root3 =>
        simp only [h3] at h
        cases h4 : applyAt root3 nodeInfo.Node mt.EvaluateIf with
        | panic => simp [h4] at h
        | err e => simp [h4] at h
        | ok root4 =>
          simp only [h4, Result.ok.injEq, Prod.mk.injEq] at h
          exact h.2.symm

/-- When the pass succeeds, the map in memory afterwards is the map it returns. -/
theorem bindingsAfterLoop_ok (mt : MemoryTransforms) (records : List NodeInfo)
    (root : yaml.Node) (variableMap : VariableMap) (root1 : yaml.Node)
    (variableMap1 : VariableMap)
    (h : evaluateLetLoop mt.toTransforms records root variableMap = .ok (root1, variableMap1)) :
    bindingsAfterLoop mt records root variableMap = variableMap1 := by
  induction records generalizing root variableMap with
  | nil =>
    simp only [evaluateLetLoop, Result.ok.injEq, Prod.mk.injEq] at h
    exact h.2
  | cons nodeInfo rest ih =>
    simp only [evaluateLetLoop] at h
    simp only [bindingsAfterLoop]
    cases hrecord : evaluateRecord mt.toTransforms root variableMap nodeInfo with
    | panic => simp [hrecord] at h
    | err e => simp [hrecord] at h
    | ok state =>
      obtain ⟨root2, variableMap2⟩ := state
      simp only [hrecord] at h
      simp only
      rw [← evaluateRecord_bindings mt root variableMap nodeInfo root2 variableMap2 hrecord]
      exact ih root2 variableMap2 h

/-- With transforms that only read the map, the map in memory when the loop is left is the
map it started with, however the loop is left. -/
theorem bindingsAfterLoop_reading (s : SpecTransforms) (records : List NodeInfo)
    (root : yaml.Node) (variableMap : VariableMap) :
    bindingsAfterLoop s.toMemory records root variableMap = variableMap := by
  induction records generalizing root with
  | nil => rfl
  | cons nodeInfo rest ih =>
    simp only [bindingsAfterLoop]
    cases evaluateRecord s.toMemory.toTransforms root variableMap nodeInfo with
    | panic => rfl
    | err e => rfl
    | ok state => exact ih state.1

/-- The frame property is a property of the transforms, not of the loop alone: with a
Variable transform that writes the map, the map after the pass differs from the map before
it, in a pass that succeeds and in a pass that fails. -/
theorem bindingsAfter_writing :
    (∃ reducedLet variableMap1,
      evaluateLet Sample.writing.toTransforms Sample.marked emptyMap =
        .ok (reducedLet, variableMap1) ∧ variableMap1 "seen" = some "") ∧
    bindingsAfter Sample.writing Sample.marked emptyMap "seen" = some "" ∧
    evaluateLet Sample.writing.toTransforms Sample.failingTree emptyMap =
      .err (.transform "c") ∧
    bindingsAfter Sample.writing Sample.failingTree emptyMap "seen" = some "c" ∧
    emptyMap "seen" = none :=
  ⟨⟨_, _, rfl, rfl⟩, rfl, rfl, rfl, rfl⟩

/-- C13, as stated, fails: of the four transforms only Variable is handed the bindings.
The sample Variable transform reduces `!Var x` differently under two maps; no
Substitution, Equals or If transform, however written, can, since `evaluateLet` calls it
with the node alone. -/
theorem only_Variable_receives_bindings :
    ReceivesBindings .Variable ∧ ¬ ReceivesBindings .Substitution ∧
    ¬ ReceivesBindings .Equals ∧ ¬ ReceivesBindings .If := by
  refine ⟨⟨Sample.transforms, ⟨"", [], true⟩, Sample.var "x", emptyMap, store emptyMap "x" "1",
    ?_⟩, ?_, ?_, ?_⟩
  · have h1 : reduction (applyTransform Sample.transforms ⟨"", [], true⟩ .Variable
        (Sample.var "x") emptyMap) = .err (.transform "x") := rfl
    have h2 : reduction (applyTransform Sample.transforms ⟨"", [], true⟩ .Variable
        (Sample.var "x") (store emptyMap "x" "1")) = .ok (Sample.str "1") := rfl
    rw [h1, h2]
    simp
  · rintro ⟨t, nodeInfo, root, m1, m2, h⟩
    exact h (reduction_replaceNode nodeInfo root m1 m2 _)
  · rintro ⟨t, nodeInfo, root, m1, m2, h⟩
    exact h (reduction_replaceNode nodeInfo root m1 m2 _)
  · rintro ⟨t, nodeInfo, root, m1, m2, h⟩
    exact h (reduction_replaceNode nodeInfo root m1 m2 _)

/-- C13, amended: the Variable transform receives the BindingMap accumulated so far, the
other three receive the node alone, and phase 2 never writes to the map: for every let tree
and every map `m`, with transforms as §4.4 describes them, the BindingMap after
`evaluateLet` equals `m`, whether `evaluateLet` succeeds (it then also returns `m`) or
fails; and every transform application the pass reaches is made under `m`. -/
theorem evaluateLet_keeps_bindings (s : SpecTransforms) (let_ : yaml.Node) (m : VariableMap) :
    bindingsAfter s.toMemory let_ m = m ∧
    (∀ reducedLet variableMap1,
      evaluateLet s.toMemory.toTransforms let_ m = .ok (reducedLet, variableMap1) →
      variableMap1 = m ∧ bindingsAfter s.toMemory let_ m = variableMap1) ∧
    (∀ e, evaluateLet s.toMemory.toTransforms let_ m = .err e →
      bindingsAfter s.toMemory let_ m = m) ∧
    (∀ before a after root1 variableMap1,
      applications (Traverse let_ .PostOrder) = before ++ a :: after →
      applyInOrder s.toMemory.toTransforms before let_ m = .ok (root1, variableMap1) →
      variableMap1 = m ∧
      applyTransform s.toMemory.toTransforms a.1 .Variable root1 variableMap1 =
        replaceNode a.1 root1 m (s.EvaluateVariable (deref a.1.Node root1) m)) ∧
    (∀ (nodeInfo : NodeInfo) (root : yaml.Node) (m1 m2 : VariableMap),
      reduction (applyTransform s.toMemory.toTransforms nodeInfo .Substitution root m1) =
        reduction (applyTransform s.toMemory.toTransforms nodeInfo .Substitution root m2) ∧
      reduction (applyTransform s.toMemory.toTransforms nodeInfo .Equals root m1) =
        reduction (applyTransform s.toMemory.toTransforms nodeInfo .Equals root m2) ∧
      reduction (applyTransform s.toMemory.toTransforms nodeInfo .If root m1) =
        reduction (applyTransform s.toMemory.toTransforms nodeInfo .If root m2)) := by
  have hafter : bindingsAfter s.toMemory let_ m = m := bindingsAfterLoop_reading s _ let_ m
  refine ⟨hafter, ?_, ?_, ?_, ?_⟩
  · intro reducedLet variableMap1 h
    exact ⟨evaluateLetLoop_readsOnly _ (SpecTransforms_readsOnly s) _ _ _ _ _ h,
      bindingsAfterLoop_ok s.toMemory _ let_ m reducedLet variableMap1 h⟩
  · intro e _
    exact hafter
  · intro before a after root1 variableMap1 _ hbefore
    have hsame := applyInOrder_readsOnly _ (SpecTransforms_readsOnly s) before let_ m root1
      variableMap1 hbefore
    refine ⟨hsame, ?_⟩
    rw [hsame]
    simp only [applyTransform, MemoryTransforms.toTransforms, SpecTransforms.toMemory]
    cases s.EvaluateVariable (deref a.1.Node root1) m <;> rfl
  · intro nodeInfo root m1 m2
    exact ⟨reduction_replaceNode nodeInfo root m1 m2 _, reduction_replaceNode nodeInfo root m1 m2 _,
      reduction_replaceNode nodeInfo root m1 m2 _⟩

/-- Two passes with the sample transforms that only read the map, from the bindings of
phase 1 of the sample seed: on the seed's `let` section the pass succeeds, on `!Var nope`
it fails; the map afterwards is the map of phase 1 both times. -/
theorem evaluateLet_keeps_bindings_witness :
    evaluateLet Sample.reading.toMemory.toTransforms Sample.seedLet
        (parseArguments ArgumentsKey Sample.seedArguments emptyMap) =
      .ok (Sample.seedReducedLet, parseArguments ArgumentsKey Sample.seedArguments emptyMap) ∧
    bindingsAfter Sample.reading.toMemory Sample.seedLet
        (parseArguments ArgumentsKey Sample.seedArguments emptyMap) =
      parseArguments ArgumentsKey Sample.seedArguments emptyMap ∧
    evaluateLet Sample.reading.toMemory.toTransforms (Sample.var "nope")
        (parseArguments ArgumentsKey Sample.seedArguments emptyMap) =
      .err (.transform "nope") ∧
    bindingsAfter Sample.reading.toMemory (Sample.var "nope")
        (parseArguments ArgumentsKey Sample.seedArguments emptyMap) =
      parseArguments ArgumentsKey Sample.seedArguments emptyMap :=
  ⟨rfl,
    (evaluateLet_keeps_bindings Sample.reading Sample.seedLet
      (parseArguments ArgumentsKey Sample.seedArguments emptyMap)).1,
    rfl,
    (evaluateLet_keeps_bindings Sample.reading (Sample.var "nope")
      (parseArguments ArgumentsKey Sample.seedArguments emptyMap)).2.2.1 _ rfl⟩

end Variable
